import Mathlib

/-!
# Phoneme normalisation pipeline of `nimble_net_data_variable.hpp`

A shallow embedding of the UTF-8 helpers and the phoneme rewriting pipeline of
`NimbleNetDataVariable` (`get_next_utf8_char`, `append_utf8_char`,
`is_stress_marker`, `replace_substring`, `replace_substring_robust`,
`transform_phonemes`, `process_phonemes`), followed by the properties proved
about them.

Conventions of the embedding:

* a byte (`unsigned char`) is a `Fin 256`; a `std::string` or the content of a
  C string is a `List Byte`;
* the memory behind a `const char *` is the content followed by the NUL
  terminator (`c_str`); a read outside of it is undefined behaviour and is the
  result `none`;
* a pointer into a buffer is the pair of the buffer and a byte offset;
* a loop is a function with a fuel argument, `none` when the fuel runs out; the
  callers pass one unit of fuel per byte of the string and one more, which is
  shown to be enough for every run that makes progress;
* a `char32_t` is a `Nat` (all values computed here are below `2^21`).
-/

/-- A byte, the value of an `unsigned char`. -/
abbrev Byte := Fin 256

/-- The memory behind `s.c_str()`: the bytes of `s` followed by the terminating NUL. -/
def c_str (s : List Byte) : List Byte := s ++ [0]

/-- The read `up[i]` of the terminated buffer, as an `unsigned char` value;
`none` when `i` is past the terminator. -/
def rd (buf : List Byte) (i : Nat) : Option Nat := ((c_str buf)[i]?).map Fin.val

/-- Source lines 117-120: `(byte & 0xC0) == 0x80`. -/
def is_utf8_continuation (byte : Byte) : Bool := byte.val &&& 0xC0 == 0x80

/-- Source lines 123-172. The pointer `p` is the offset `p` into `buf`; the result is
the decoded `char32_t` and the advanced pointer. -/
def get_next_utf8_char (buf : List Byte) (p : Nat) : Option (Nat × Nat) := do
  let up0 ← rd buf p
  -- Single byte (ASCII)
  if up0 < 0x80 then
    return (up0, p + 1)
  -- 2-byte sequence
  if up0 &&& 0xE0 = 0xC0 then
    let up1 ← rd buf (p + 1)
    if up1 &&& 0xC0 = 0x80 then
      return (((up0 &&& 0x1F) <<< 6) ||| (up1 &&& 0x3F), p + 2)
  -- 3-byte sequence
  if up0 &&& 0xF0 = 0xE0 then
    let up1 ← rd buf (p + 1)
    if up1 &&& 0xC0 = 0x80 then
      let up2 ← rd buf (p + 2)
      if up2 &&& 0xC0 = 0x80 then
        return (((up0 &&& 0x0F) <<< 12) ||| ((up1 &&& 0x3F) <<< 6) ||| (up2 &&& 0x3F), p + 3)
  -- 4-byte sequence
  if up0 &&& 0xF8 = 0xF0 then
    let up1 ← rd buf (p + 1)
    if up1 &&& 0xC0 = 0x80 then
      let up2 ← rd buf (p + 2)
      if up2 &&& 0xC0 = 0x80 then
        let up3 ← rd buf (p + 3)
        if up3 &&& 0xC0 = 0x80 then
          return (((up0 &&& 0x07) <<< 18) ||| ((up1 &&& 0x3F) <<< 12) |||
                  ((up2 &&& 0x3F) <<< 6) ||| (up3 &&& 0x3F), p + 4)
  -- Invalid sequence, skip one byte
  return (0xFFFD, p + 1)

/-- The conversion `static_cast<char>(x)`: the low eight bits. -/
def to_char (x : Nat) : Byte := ⟨x % 256, Nat.mod_lt x (by decide)⟩

/-- Source lines 175-203. The bytes written through `buffer` are appended to the list
`buffer`; nothing is written for `ch ≥ 0x110000`. -/
def append_utf8_char (ch : Nat) (buffer : List Byte) : List Byte :=
  if ch < 0x80 then
    buffer ++ [to_char ch]
  else if ch < 0x800 then
    buffer ++ [to_char (0xC0 ||| (ch >>> 6)), to_char (0x80 ||| (ch &&& 0x3F))]
  else if ch < 0x10000 then
    buffer ++ [to_char (0xE0 ||| (ch >>> 12)), to_char (0x80 ||| ((ch >>> 6) &&& 0x3F)),
               to_char (0x80 ||| (ch &&& 0x3F))]
  else if ch < 0x110000 then
    buffer ++ [to_char (0xF0 ||| (ch >>> 18)), to_char (0x80 ||| ((ch >>> 12) &&& 0x3F)),
               to_char (0x80 ||| ((ch >>> 6) &&& 0x3F)), to_char (0x80 ||| (ch &&& 0x3F))]
  else
    buffer

/-- Source lines 206-213; `'_'` is `0x5F`. -/
def is_stress_marker (ch : Nat) : Bool :=
  ch == 0x02C8 || ch == 0x02CC || ch == 0x5F

/-- Candidate scan of `std::string::find`: the first offset among `pos, pos+1, ...`
(`n` candidates) at which `from_` occurs in `str`. -/
def string_find_at (str from_ : List Byte) : Nat → Nat → Option Nat
  | _, 0 => none
  | pos, n + 1 =>
    if from_.isPrefixOf (str.drop pos) then some pos
    else string_find_at str from_ (pos + 1) n

/-- The call `str.find(from, pos)` of the standard library: the lowest offset `≥ pos` at which
`from_` occurs wholly inside `str`; `none` stands for `npos` (no occurrence). -/
def string_find (str from_ : List Byte) (pos : Nat) : Option Nat :=
  string_find_at str from_ pos (str.length + 1 - (pos + from_.length))

/-- The test `str.compare(pos, len, other) == 0` of the standard library: the substring of at
most `len` bytes at `pos` equals `other`; the call throws `std::out_of_range` (`none`) when
`pos > str.size()`. -/
def string_compare_eq (str : List Byte) (pos len : Nat) (other : List Byte) : Option Bool :=
  if pos > str.length then none else some (decide ((str.drop pos).take len = other))

/-- The call `result.append(str, pos, n)` of the standard library: appends the substring of at
most `n` bytes at `pos`, and the whole rest of `str` when `n` is `std::string::npos` (here
`n = none`); throws `std::out_of_range` (the result `none`) when `pos > str.size()`. -/
def string_append_sub (result str : List Byte) (pos : Nat) (n : Option Nat) :
    Option (List Byte) :=
  if pos > str.length then none
  else
    match n with
    | some n => some (result ++ (str.drop pos).take n)
    | none => some (result ++ str.drop pos)

/-- The call `result.append(strData + a, b - a)`: appends the bytes of the terminated buffer
at offsets `a ≤ i < b`; reading past the terminator is undefined (`none`). -/
def string_append_mem (result buf : List Byte) (a b : Nat) : Option (List Byte) :=
  if b ≤ (c_str buf).length then some (result ++ ((c_str buf).drop a).take (b - a)) else none

/-- The read `str[pos]` (defined for `pos ≤ str.size()`, the terminator included). -/
def string_at (str : List Byte) (pos : Nat) : Option Byte := (c_str str)[pos]?

/-- The `while` loop of `replace_substring`, source lines 228-251, with the loop state
`lastPos`, `result`. In the rejecting branch the source increments `pos` and continues; the
loop condition then assigns `pos` anew from `str.find(from, lastPos)` with `lastPos` unchanged. -/
def replace_substring_loop (str from_ to_ : List Byte) :
    Nat → Nat → List Byte → Option (List Byte)
  | 0, _, _ => none
  | fuel + 1, lastPos, result =>
    match string_find str from_ lastPos with
    | none =>
      -- Append any remaining characters
      string_append_sub result str lastPos none
    | some pos => do
      let validBoundary ←
        if pos > 0 then (string_at str pos).map (fun c => !is_utf8_continuation c)
        else some true
      if validBoundary then
        let result ← string_append_sub result str lastPos (some (pos - lastPos))
        replace_substring_loop str from_ to_ fuel (pos + from_.length) (result ++ to_)
      else
        replace_substring_loop str from_ to_ fuel lastPos result

/-- Source lines 216-256. -/
def replace_substring (str from_ to_ : List Byte) : Option (List Byte) :=
  if from_.isEmpty then some str
  else replace_substring_loop str from_ to_ (str.length + 1) 0 []

/-- The `while` loop of `replace_substring_robust`, source lines 288-306, with the loop
state `strPos`, `result`. -/
def replace_substring_robust_loop (str from_ to_ : List Byte) :
    Nat → Nat → List Byte → Option (List Byte)
  | 0, _, _ => none
  | fuel + 1, strPos, result => do
    let c ← rd str strPos
    if c = 0 then
      return result
    if (← string_compare_eq str strPos from_.length from_) then
      -- Found a match
      replace_substring_robust_loop str from_ to_ fuel (strPos + from_.length) (result ++ to_)
    else
      -- No match, copy the current character
      let (_, current) ← get_next_utf8_char str strPos
      let result ← string_append_mem result str strPos current
      replace_substring_robust_loop str from_ to_ fuel current result

/-- Source lines 259-309. -/
def replace_substring_robust (str from_ to_ : List Byte) : Option (List Byte) :=
  if from_.isEmpty then some str
  else
    let hasMultibyteChars := from_.any (fun c => decide (c.val ≥ 0x80))
    if !hasMultibyteChars then replace_substring str from_ to_
    else replace_substring_robust_loop str from_ to_ (str.length + 1) 0 []

/-- The table `E2M` of source lines 315-333, as UTF-8 bytes. -/
def E2M : List (List Byte × List Byte) :=
  [ ([0x61, 0x5E, 0xC9, 0xAA], [0x49]),                                   -- "a^ɪ" -> "I"
    ([0x61, 0x5E, 0xCA, 0x8A], [0x57]),                                   -- "a^ʊ" -> "W"
    ([0x64, 0x5E, 0x7A], [0xCA, 0xA3]),                                   -- "d^z" -> "ʣ"
    ([0x64, 0x5E, 0xCA, 0x92], [0xCA, 0xA4]),                             -- "d^ʒ" -> "ʤ"
    ([0x65, 0x5E, 0xC9, 0xAA], [0x41]),                                   -- "e^ɪ" -> "A"
    ([0x6F, 0x5E, 0xCA, 0x8A], [0x4F]),                                   -- "o^ʊ" -> "O"
    ([0x73, 0x5E, 0x73], [0x53]),                                         -- "s^s" -> "S"
    ([0x74, 0x5E, 0x73], [0xCA, 0xA6]),                                   -- "t^s" -> "ʦ"
    ([0x74, 0x5E, 0xCA, 0x83], [0xCA, 0xA7]),                             -- "t^ʃ" -> "ʧ"
    ([0xC9, 0x94, 0x5E, 0xC9, 0xAA], [0x59]),                             -- "ɔ^ɪ" -> "Y"
    ([0xC9, 0x99, 0x5E, 0xCA, 0x8A], [0x51]),                             -- "ə^ʊ" -> "Q"
    ([0xC9, 0x9C, 0xCB, 0x90, 0xC9, 0xB9], [0xC9, 0x9C, 0xC9, 0xB9]),     -- "ɜːɹ" -> "ɜɹ"
    ([0xC9, 0x94, 0xCB, 0x90], [0xC9, 0x94, 0xC9, 0xB9]),                 -- "ɔː" -> "ɔɹ"
    ([0xC9, 0xAA, 0xC9, 0x99], [0x69, 0xC9, 0x99]),                       -- "ɪə" -> "iə"
    ([0x5E], []),                                                         -- "^" -> ""
    ([0x61, 0x6E, 0x64], [0xC3, 0xA6, 0x6E, 0x64]),                       -- "and" -> "ænd"
    ([0x3A], []) ]                                                        -- ":" -> ""

/-- The `for` loop of `transform_phonemes` (source lines 337-340) over a rule table. -/
def apply_rules : List (List Byte × List Byte) → List Byte → Option (List Byte)
  | [], result => some result
  | pair :: rest, result =>
    (replace_substring_robust result pair.1 pair.2).bind (apply_rules rest)

/-- Source lines 312-342. -/
def transform_phonemes (phonemes : List Byte) : Option (List Byte) :=
  apply_rules E2M phonemes

/-- The stress-removal loop of `process_phonemes`, source lines 354-364, over the terminated
buffer `buf`, with the loop state `src`, `without_stress`. -/
def strip_loop (buf : List Byte) : Nat → Nat → List Byte → Option (List Byte)
  | 0, _, _ => none
  | fuel + 1, src, without_stress => do
    let c ← rd buf src
    if c = 0 then
      return without_stress
    let current := src
    let (ch, src) ← get_next_utf8_char buf src
    if !is_stress_marker ch then
      -- Append the original bytes for this character
      let without_stress ← string_append_mem without_stress buf current src
      strip_loop buf fuel src without_stress
    else
      strip_loop buf fuel src without_stress

/-- The first stage of `process_phonemes` (source lines 350-364): the string `without_stress`
built from the C string whose content is `phonemes`. -/
def strip_stress_markers (phonemes : List Byte) : Option (List Byte) :=
  strip_loop phonemes (phonemes.length + 1) 0 []

/-- Source lines 345-368; `none` as argument is the null pointer, `some s` a pointer to the
NUL-terminated buffer with content `s`. -/
def process_phonemes (phonemes : Option (List Byte)) : Option (List Byte) :=
  match phonemes with
  | none => some []
  | some buf => (strip_stress_markers buf).bind transform_phonemes

/-- The `unsigned char` at offset `i` of the terminated buffer (`0` past the terminator). -/
def byte_at (buf : List Byte) (i : Nat) : Nat := (rd buf i).getD 0

/-- Arithmetic reading of one decoding step on the four bytes at the cursor: the decoded
value and the number of bytes consumed. Used to state what `get_next_utf8_char` computes
without bit operations. -/
def decode4 (b0 b1 b2 b3 : Nat) : Nat × Nat :=
  if b0 < 128 then (b0, 1)
  else if 192 ≤ b0 ∧ b0 < 224 ∧ 128 ≤ b1 ∧ b1 < 192 then
    (b0 % 32 * 64 + b1 % 64, 2)
  else if 224 ≤ b0 ∧ b0 < 240 ∧ (128 ≤ b1 ∧ b1 < 192) ∧ 128 ≤ b2 ∧ b2 < 192 then
    (b0 % 16 * 4096 + b1 % 64 * 64 + b2 % 64, 3)
  else if 240 ≤ b0 ∧ b0 < 248 ∧ (128 ≤ b1 ∧ b1 < 192) ∧ (128 ≤ b2 ∧ b2 < 192) ∧
      128 ≤ b3 ∧ b3 < 192 then
    (b0 % 8 * 262144 + b1 % 64 * 4096 + b2 % 64 * 64 + b3 % 64, 4)
  else (0xFFFD, 1)

/-- The characters of the C string with content `buf` from offset `p` on, as the loop of
`process_phonemes` reads them: each decoded code point with its span of original bytes. -/
def decode_loop (buf : List Byte) : Nat → Nat → List (Nat × List Byte)
  | 0, _ => []
  | fuel + 1, p =>
    if byte_at buf p = 0 then []
    else
      match get_next_utf8_char buf p with
      | none => []
      | some (ch, q) => (ch, ((c_str buf).drop p).take (q - p)) :: decode_loop buf fuel q

/-- The decoded characters of a whole C string, in order. -/
def decode_all (buf : List Byte) : List (Nat × List Byte) :=
  decode_loop buf (buf.length + 1) 0

/-- The byte `b` has the form `10xxxxxx`. -/
abbrev cont_byte (b : Nat) : Prop := 128 ≤ b ∧ b < 192

/-- At offset `p` stands a 2-byte lead `110xxxxx` followed by one byte `10xxxxxx`. -/
abbrev seq2_at (buf : List Byte) (p : Nat) : Prop :=
  192 ≤ byte_at buf p ∧ byte_at buf p < 224 ∧ cont_byte (byte_at buf (p + 1))

/-- At offset `p` stands a 3-byte lead `1110xxxx` followed by two bytes `10xxxxxx`. -/
abbrev seq3_at (buf : List Byte) (p : Nat) : Prop :=
  224 ≤ byte_at buf p ∧ byte_at buf p < 240 ∧ cont_byte (byte_at buf (p + 1)) ∧
    cont_byte (byte_at buf (p + 2))

/-- At offset `p` stands a 4-byte lead `11110xxx` followed by three bytes `10xxxxxx`. -/
abbrev seq4_at (buf : List Byte) (p : Nat) : Prop :=
  240 ≤ byte_at buf p ∧ byte_at buf p < 248 ∧ cont_byte (byte_at buf (p + 1)) ∧
    cont_byte (byte_at buf (p + 2)) ∧ cont_byte (byte_at buf (p + 3))

/-- Big-step reading of the character-scanning loop of `replace_substring_robust` on the rest
`s` of the string (the bytes from `strPos` on): the loop stops at the terminator; where `from_`
occurs at the cursor it emits `to_` and skips the occurrence; otherwise it copies the bytes of
the character decoded at the cursor. The second list is what the loop appends to `result`. -/
inductive RobustScan (from_ to_ : List Byte) : List Byte → List Byte → Prop
  | stop {s : List Byte} : byte_at s 0 = 0 → RobustScan from_ to_ s []
  | hit {s out : List Byte} : byte_at s 0 ≠ 0 → from_ <+: s →
      RobustScan from_ to_ (s.drop from_.length) out → RobustScan from_ to_ s (to_ ++ out)
  | skip {s out : List Byte} {ch n : Nat} : byte_at s 0 ≠ 0 → ¬ from_ <+: s →
      get_next_utf8_char s 0 = some (ch, n) →
      RobustScan from_ to_ (s.drop n) out → RobustScan from_ to_ s (s.take n ++ out)

/-- One well-formed UTF-8 encoded character, as the list of its bytes (RFC 3629, Unicode
table 3-7): shortest form only, no surrogates, nothing above U+10FFFF. -/
def valid_char (c : List Byte) : Bool :=
  match c with
  | [b0] => decide (b0.val < 0x80)
  | [b0, b1] =>
    decide (0xC2 ≤ b0.val ∧ b0.val ≤ 0xDF ∧ 0x80 ≤ b1.val ∧ b1.val ≤ 0xBF)
  | [b0, b1, b2] =>
    decide (((b0.val = 0xE0 ∧ 0xA0 ≤ b1.val ∧ b1.val ≤ 0xBF) ∨
        (0xE1 ≤ b0.val ∧ b0.val ≤ 0xEC ∧ 0x80 ≤ b1.val ∧ b1.val ≤ 0xBF) ∨
        (b0.val = 0xED ∧ 0x80 ≤ b1.val ∧ b1.val ≤ 0x9F) ∨
        (0xEE ≤ b0.val ∧ b0.val ≤ 0xEF ∧ 0x80 ≤ b1.val ∧ b1.val ≤ 0xBF)) ∧
      0x80 ≤ b2.val ∧ b2.val ≤ 0xBF)
  | [b0, b1, b2, b3] =>
    decide (((b0.val = 0xF0 ∧ 0x90 ≤ b1.val ∧ b1.val ≤ 0xBF) ∨
        (0xF1 ≤ b0.val ∧ b0.val ≤ 0xF3 ∧ 0x80 ≤ b1.val ∧ b1.val ≤ 0xBF) ∨
        (b0.val = 0xF4 ∧ 0x80 ≤ b1.val ∧ b1.val ≤ 0x8F)) ∧
      0x80 ≤ b2.val ∧ b2.val ≤ 0xBF ∧ 0x80 ≤ b3.val ∧ b3.val ≤ 0xBF)
  | _ => false

/-- Valid UTF-8: the byte string is a sequence of well-formed encoded characters. The lead
byte announces the length of each character. -/
def valid_utf8 : List Byte → Bool
  | [] => true
  | b0 :: rest =>
    if b0.val < 0x80 then valid_utf8 rest
    else if b0.val < 0xE0 then
      match rest with
      | b1 :: r => valid_char [b0, b1] && valid_utf8 r
      | _ => false
    else if b0.val < 0xF0 then
      match rest with
      | b1 :: b2 :: r => valid_char [b0, b1, b2] && valid_utf8 r
      | _ => false
    else
      match rest with
      | b1 :: b2 :: b3 :: r => valid_char [b0, b1, b2, b3] && valid_utf8 r
      | _ => false

/-- Decoding a whole string with `get_next_utf8_char` and writing every code point back with
`append_utf8_char`, in order, into an empty buffer. -/
def decode_encode (s : List Byte) : List Byte :=
  (decode_all s).foldl (fun buffer c => append_utf8_char c.1 buffer) []

/-- The successive values of the cursor `src` in the stress-removal loop of `process_phonemes`
(source lines 354-364), the value at the exit of the loop included; `none` when a read leaves
the terminated buffer. -/
def cursor_loop (buf : List Byte) : Nat → Nat → Option (List Nat)
  | 0, _ => none
  | fuel + 1, src => do
    let c ← rd buf src
    if c = 0 then
      return [src]
    let (_, next) ← get_next_utf8_char buf src
    let rest ← cursor_loop buf fuel next
    return src :: rest

/-- The cursor values of the stress-removal loop on a whole C string, from the start. -/
def cursors (buf : List Byte) : Option (List Nat) :=
  cursor_loop buf (buf.length + 1) 0

/-- Reference replace-all, after the words of the specification (left to right,
non-overlapping, byte-exact): scan the bytes in order; where `from_` occurs at the current
byte, write `to_` and skip the bytes of this occurrence; elsewhere copy the byte. The counter
is the number of bytes of the current occurrence that are still to be skipped. -/
def replace_all_from (from_ to_ : List Byte) : Nat → List Byte → List Byte
  | _, [] => []
  | skip + 1, _ :: t => replace_all_from from_ to_ skip t
  | 0, b :: t =>
    if from_.isPrefixOf (b :: t) then to_ ++ replace_all_from from_ to_ (from_.length - 1) t
    else b :: replace_all_from from_ to_ 0 t

/-- Reference replace-all of `from_` by `to_` in `str`. -/
def replace_all_ref (from_ to_ str : List Byte) : List Byte :=
  replace_all_from from_ to_ 0 str

/-! ## Reads of the terminated buffer -/

theorem byte_at_lt (buf : List Byte) (i : Nat) : byte_at buf i < 256 := by
  unfold byte_at rd
  cases h : (c_str buf)[i]? with
  | none => simp
  | some b => simp

theorem rd_eq_byte_at {buf : List Byte} {i : Nat} (h : i ≤ buf.length) :
    rd buf i = some (byte_at buf i) := by
  unfold byte_at rd
  have hi : i < (c_str buf).length := by simp [c_str]; omega
  rw [List.getElem?_eq_getElem hi]
  simp

theorem byte_at_length (buf : List Byte) : byte_at buf buf.length = 0 := by
  simp [byte_at, rd, c_str]

theorem byte_at_ne_zero {buf : List Byte} {i : Nat} (h : byte_at buf i ≠ 0) :
    i < buf.length := by
  by_contra hlt
  apply h
  rcases Nat.lt_or_ge buf.length i with hgt | hle
  · have : (c_str buf)[i]? = none := by
      apply List.getElem?_eq_none
      simp [c_str]; omega
    simp [byte_at, rd, this]
  · have : i = buf.length := by omega
    subst this
    exact byte_at_length buf

theorem rd_succ_of_ne_zero {buf : List Byte} {i : Nat} (h : byte_at buf i ≠ 0) :
    rd buf (i + 1) = some (byte_at buf (i + 1)) :=
  rd_eq_byte_at (byte_at_ne_zero h)

/-! ## Bit patterns of a byte as ranges -/

set_option maxRecDepth 100000 in
theorem fin_masks : ∀ b : Fin 256,
    ((b.val &&& 0xC0 = 0x80) ↔ (128 ≤ b.val ∧ b.val < 192)) ∧
    ((b.val &&& 0xE0 = 0xC0) ↔ (192 ≤ b.val ∧ b.val < 224)) ∧
    ((b.val &&& 0xF0 = 0xE0) ↔ (224 ≤ b.val ∧ b.val < 240)) ∧
    ((b.val &&& 0xF8 = 0xF0) ↔ (240 ≤ b.val ∧ b.val < 248)) := by
  decide

theorem and_C0 {b : Nat} (h : b < 256) : (b &&& 0xC0 = 0x80) ↔ (128 ≤ b ∧ b < 192) :=
  (fin_masks ⟨b, h⟩).1

theorem and_E0 {b : Nat} (h : b < 256) : (b &&& 0xE0 = 0xC0) ↔ (192 ≤ b ∧ b < 224) :=
  (fin_masks ⟨b, h⟩).2.1

theorem and_F0 {b : Nat} (h : b < 256) : (b &&& 0xF0 = 0xE0) ↔ (224 ≤ b ∧ b < 240) :=
  (fin_masks ⟨b, h⟩).2.2.1

theorem and_F8 {b : Nat} (h : b < 256) : (b &&& 0xF8 = 0xF0) ↔ (240 ≤ b ∧ b < 248) :=
  (fin_masks ⟨b, h⟩).2.2.2

theorem or_shift (i a b : Nat) (h : b < 2 ^ i) : (a <<< i) ||| b = a * 2 ^ i + b := by
  rw [Nat.shiftLeft_eq, Nat.mul_comm a, Nat.mul_add_lt_is_or h]

theorem or_shift6 (a b : Nat) (h : b < 64) : (a <<< 6) ||| b = a * 64 + b :=
  or_shift 6 a b h

theorem or_shift12 (a b : Nat) (h : b < 4096) : (a <<< 12) ||| b = a * 4096 + b :=
  or_shift 12 a b h

theorem or_shift18 (a b : Nat) (h : b < 262144) : (a <<< 18) ||| b = a * 262144 + b :=
  or_shift 18 a b h

theorem value2 (b0 b1 : Nat) :
    ((b0 &&& 0x1F) <<< 6) ||| (b1 &&& 0x3F) = b0 % 32 * 64 + b1 % 64 := by
  have e0 : b0 &&& 0x1F = b0 % 32 := Nat.and_pow_two_sub_one_eq_mod b0 5
  have e1 : b1 &&& 0x3F = b1 % 64 := Nat.and_pow_two_sub_one_eq_mod b1 6
  rw [e0, e1, or_shift6 (b0 % 32) (b1 % 64) (Nat.mod_lt _ (by decide))]

theorem value3 (b0 b1 b2 : Nat) :
    ((b0 &&& 0x0F) <<< 12) ||| ((b1 &&& 0x3F) <<< 6) ||| (b2 &&& 0x3F)
      = b0 % 16 * 4096 + b1 % 64 * 64 + b2 % 64 := by
  have e0 : b0 &&& 0x0F = b0 % 16 := Nat.and_pow_two_sub_one_eq_mod b0 4
  have e1 : b1 &&& 0x3F = b1 % 64 := Nat.and_pow_two_sub_one_eq_mod b1 6
  have e2 : b2 &&& 0x3F = b2 % 64 := Nat.and_pow_two_sub_one_eq_mod b2 6
  have h1 : b1 % 64 < 64 := Nat.mod_lt _ (by decide)
  have h2 : b2 % 64 < 64 := Nat.mod_lt _ (by decide)
  rw [e0, e1, e2, Nat.lor_assoc, or_shift6 (b1 % 64) (b2 % 64) h2,
    or_shift12 (b0 % 16) (b1 % 64 * 64 + b2 % 64) (by omega)]
  omega

theorem value4 (b0 b1 b2 b3 : Nat) :
    ((b0 &&& 0x07) <<< 18) ||| ((b1 &&& 0x3F) <<< 12) ||| ((b2 &&& 0x3F) <<< 6) ||| (b3 &&& 0x3F)
      = b0 % 8 * 262144 + b1 % 64 * 4096 + b2 % 64 * 64 + b3 % 64 := by
  have e0 : b0 &&& 0x07 = b0 % 8 := Nat.and_pow_two_sub_one_eq_mod b0 3
  have e1 : b1 &&& 0x3F = b1 % 64 := Nat.and_pow_two_sub_one_eq_mod b1 6
  have e2 : b2 &&& 0x3F = b2 % 64 := Nat.and_pow_two_sub_one_eq_mod b2 6
  have e3 : b3 &&& 0x3F = b3 % 64 := Nat.and_pow_two_sub_one_eq_mod b3 6
  have h1 : b1 % 64 < 64 := Nat.mod_lt _ (by decide)
  have h2 : b2 % 64 < 64 := Nat.mod_lt _ (by decide)
  have h3 : b3 % 64 < 64 := Nat.mod_lt _ (by decide)
  rw [e0, e1, e2, e3, Nat.lor_assoc, Nat.lor_assoc, or_shift6 (b2 % 64) (b3 % 64) h3,
    or_shift12 (b1 % 64) (b2 % 64 * 64 + b3 % 64) (by omega),
    or_shift18 (b0 % 8) (b1 % 64 * 4096 + (b2 % 64 * 64 + b3 % 64)) (by omega)]
  omega

/-! ## The decoder as a case distinction on byte ranges -/

theorem get_next_utf8_char_eq {buf : List Byte} {p : Nat} (hp : p ≤ buf.length) :
    get_next_utf8_char buf p = some (
      (decode4 (byte_at buf p) (byte_at buf (p + 1)) (byte_at buf (p + 2))
        (byte_at buf (p + 3))).1,
      p + (decode4 (byte_at buf p) (byte_at buf (p + 1)) (byte_at buf (p + 2))
        (byte_at buf (p + 3))).2) := by
  unfold decode4
  have l0 := byte_at_lt buf p
  have l1 := byte_at_lt buf (p + 1)
  have l2 := byte_at_lt buf (p + 2)
  have l3 := byte_at_lt buf (p + 3)
  unfold get_next_utf8_char
  rw [rd_eq_byte_at hp]
  by_cases h0 : byte_at buf p < 128
  · simp [h0]
  · have r1 : rd buf (p + 1) = some (byte_at buf (p + 1)) :=
      rd_succ_of_ne_zero (by omega)
    have r2 : 128 ≤ byte_at buf (p + 1) → rd buf (p + 2) = some (byte_at buf (p + 2)) :=
      fun h => rd_succ_of_ne_zero (by omega)
    have r3 : 128 ≤ byte_at buf (p + 2) → rd buf (p + 3) = some (byte_at buf (p + 3)) :=
      fun h => rd_succ_of_ne_zero (by omega)
    simp only [Option.bind_eq_bind, Option.some_bind, h0, if_false, r1, and_C0 l1, and_E0 l0,
      and_F0 l0, and_F8 l0, and_C0 l2, and_C0 l3, value2, value3, value4, Option.pure_def]
    by_cases c1 : 128 ≤ byte_at buf (p + 1) ∧ byte_at buf (p + 1) < 192
    · simp only [r2 c1.1, Option.some_bind, and_C0 l2, value3, value4]
      by_cases c2 : 128 ≤ byte_at buf (p + 2) ∧ byte_at buf (p + 2) < 192
      · simp only [r3 c2.1, Option.some_bind, and_C0 l3, value4]
        split_ifs <;> first | omega | rfl
      · simp only [c2, if_false, and_false, false_and]
        split_ifs <;> first | omega | rfl
    · simp only [c1, if_false, and_false, false_and]
      split_ifs <;> first | omega | rfl

theorem decode4_len (b0 b1 b2 b3 : Nat) :
    1 ≤ (decode4 b0 b1 b2 b3).2 ∧ (decode4 b0 b1 b2 b3).2 ≤ 4 := by
  unfold decode4
  split_ifs <;> simp

theorem decode4_len_cases (b0 b1 b2 b3 : Nat) :
    (decode4 b0 b1 b2 b3).2 = 1 ∨
    ((decode4 b0 b1 b2 b3).2 = 2 ∧ 128 ≤ b0 ∧ 128 ≤ b1) ∨
    ((decode4 b0 b1 b2 b3).2 = 3 ∧ 128 ≤ b0 ∧ 128 ≤ b1 ∧ 128 ≤ b2) ∨
    ((decode4 b0 b1 b2 b3).2 = 4 ∧ 128 ≤ b0 ∧ 128 ≤ b1 ∧ 128 ≤ b2 ∧ 128 ≤ b3) := by
  unfold decode4
  split_ifs <;> simp <;> omega

/-- One decoding step at a non-NUL byte inside the buffer advances by one to four bytes and
stays at or before the terminator. -/
theorem get_next_utf8_char_step {buf : List Byte} {p : Nat} (h : byte_at buf p ≠ 0) :
    ∃ ch n, get_next_utf8_char buf p = some (ch, p + n) ∧ 1 ≤ n ∧ n ≤ 4 ∧
      p + n ≤ buf.length ∧
      (ch, n) = decode4 (byte_at buf p) (byte_at buf (p + 1)) (byte_at buf (p + 2))
        (byte_at buf (p + 3)) := by
  have hp : p < buf.length := byte_at_ne_zero h
  refine ⟨_, _, get_next_utf8_char_eq (Nat.le_of_lt hp), (decode4_len _ _ _ _).1,
    (decode4_len _ _ _ _).2, ?_, rfl⟩
  have nz : ∀ i, 128 ≤ byte_at buf i → i < buf.length :=
    fun i hi => byte_at_ne_zero (by omega)
  rcases decode4_len_cases (byte_at buf p) (byte_at buf (p + 1)) (byte_at buf (p + 2))
    (byte_at buf (p + 3)) with h1 | ⟨h2, _, a1⟩ | ⟨h3, _, _, a2⟩ | ⟨h4, _, _, _, a3⟩
  · omega
  · have := nz _ a1; omega
  · have := nz _ a2; omega
  · have := nz _ a3; omega

theorem c_str_drop {buf : List Byte} {p : Nat} (hp : p ≤ buf.length) :
    c_str (buf.drop p) = (c_str buf).drop p := by
  unfold c_str
  rw [List.drop_append_of_le_length hp]

theorem byte_at_drop {buf : List Byte} {p : Nat} (hp : p ≤ buf.length) (i : Nat) :
    byte_at (buf.drop p) i = byte_at buf (p + i) := by
  unfold byte_at rd
  rw [c_str_drop hp, List.getElem?_drop]

/-- Decoding at offset `p` of a buffer is decoding at offset `0` of the rest of the buffer. -/
theorem get_next_utf8_char_drop {buf : List Byte} {p : Nat} (hp : p ≤ buf.length) :
    get_next_utf8_char buf p =
      (get_next_utf8_char (buf.drop p) 0).map (fun r => (r.1, p + r.2)) := by
  rw [get_next_utf8_char_eq hp, get_next_utf8_char_eq (Nat.zero_le _)]
  simp only [Option.map_some', Nat.zero_add]
  rw [byte_at_drop hp 0, byte_at_drop hp 1, byte_at_drop hp 2, byte_at_drop hp 3]
  simp

/-! ## The decoder: case distinction and range of the result -/

/-- C3: at every cursor position of a terminated buffer, `get_next_utf8_char` returns
U+FFFD and advances by exactly one byte if and only if the byte at the cursor is `≥ 0x80`
and is not a 2-, 3- or 4-byte lead followed by 1, 2 or 3 bytes of the form `10xxxxxx`; a
byte `< 0x80` is returned as it is with an advance of 1, and a well-formed 2-, 3- or 4-byte
sequence advances by 2, 3 or 4 and returns the value assembled from its 11, 16 or 21
payload bits. -/
theorem get_next_utf8_char_cases (buf : List Byte) (p : Nat) (hp : p ≤ buf.length) :
    (get_next_utf8_char buf p = some (0xFFFD, p + 1) ↔
      128 ≤ byte_at buf p ∧ ¬ seq2_at buf p ∧ ¬ seq3_at buf p ∧ ¬ seq4_at buf p) ∧
    (byte_at buf p < 128 → get_next_utf8_char buf p = some (byte_at buf p, p + 1)) ∧
    (seq2_at buf p → get_next_utf8_char buf p =
      some (byte_at buf p % 32 * 64 + byte_at buf (p + 1) % 64, p + 2)) ∧
    (seq3_at buf p → get_next_utf8_char buf p =
      some (byte_at buf p % 16 * 4096 + byte_at buf (p + 1) % 64 * 64 +
        byte_at buf (p + 2) % 64, p + 3)) ∧
    (seq4_at buf p → get_next_utf8_char buf p =
      some (byte_at buf p % 8 * 262144 + byte_at buf (p + 1) % 64 * 4096 +
        byte_at buf (p + 2) % 64 * 64 + byte_at buf (p + 3) % 64, p + 4)) := by
  rw [get_next_utf8_char_eq hp]
  unfold decode4
  simp only [seq2_at, seq3_at, seq4_at, cont_byte]
  refine ⟨?_, ?_, ?_, ?_, ?_⟩
  · split_ifs <;> simp <;> omega
  · intro h; simp [h]
  · intro h
    split_ifs <;> first | omega | rfl
  · intro h
    split_ifs <;> first | omega | rfl
  · intro h
    split_ifs <;> first | omega | rfl

theorem get_next_utf8_char_cases_witness :
    (1 : Nat) ≤ ([0x61, 0x80, 0xCA, 0x83] : List Byte).length ∧
    (2 : Nat) ≤ ([0x61, 0x80, 0xCA, 0x83] : List Byte).length ∧
    get_next_utf8_char [0x61, 0x80, 0xCA, 0x83] 1 = some (0xFFFD, 2) ∧
    get_next_utf8_char [0x61, 0x80, 0xCA, 0x83] 2 = some (0x283, 4) := by
  refine ⟨by decide, by decide, ?_, ?_⟩
  · exact (get_next_utf8_char_cases [0x61, 0x80, 0xCA, 0x83] 1 (by decide)).1.mpr (by decide)
  · exact (get_next_utf8_char_cases [0x61, 0x80, 0xCA, 0x83] 2 (by decide)).2.2.1 (by decide)

/-- C7 (counterexample): the bytes F4 90 80 80 pass every test of the 4-byte branch and
decode to 0x110000, which is above 0x10FFFF. -/
theorem get_next_utf8_char_above_range :
    ∃ cp q, get_next_utf8_char [0xF4, 0x90, 0x80, 0x80] 0 = some (cp, q) ∧ ¬ cp ≤ 0x10FFFF :=
  ⟨0x110000, 4, by decide, by decide⟩

/-- C7 (amended): at every cursor position of a terminated buffer the code point returned by
`get_next_utf8_char` is below 0x200000 (21 bits); it is `≥ 0x110000` exactly when the
4-byte branch decodes a sequence whose lead byte is above 0xF4, or is 0xF4 with a second
byte `≥ 0x90`. -/
theorem get_next_utf8_char_range (buf : List Byte) (p : Nat) (hp : p ≤ buf.length) :
    ∃ cp q, get_next_utf8_char buf p = some (cp, q) ∧ cp < 0x200000 ∧
      (0x110000 ≤ cp ↔ seq4_at buf p ∧
        (0xF4 < byte_at buf p ∨ (byte_at buf p = 0xF4 ∧ 0x90 ≤ byte_at buf (p + 1)))) := by
  refine ⟨_, _, get_next_utf8_char_eq hp, ?_, ?_⟩
  · unfold decode4
    split_ifs <;> simp only <;> omega
  · unfold decode4
    simp only [seq4_at, cont_byte]
    split_ifs <;> simp only <;> omega

theorem get_next_utf8_char_range_witness :
    (0 : Nat) ≤ ([0xF4, 0x8F, 0xBF, 0xBF] : List Byte).length ∧
    ∃ cp q, get_next_utf8_char [0xF4, 0x8F, 0xBF, 0xBF] 0 = some (cp, q) ∧ cp < 0x200000 ∧
      (0x110000 ≤ cp ↔ seq4_at [0xF4, 0x8F, 0xBF, 0xBF] 0 ∧
        (0xF4 < byte_at [0xF4, 0x8F, 0xBF, 0xBF] 0 ∨
          (byte_at [0xF4, 0x8F, 0xBF, 0xBF] 0 = 0xF4 ∧
            0x90 ≤ byte_at [0xF4, 0x8F, 0xBF, 0xBF] (0 + 1)))) :=
  ⟨by decide, get_next_utf8_char_range [0xF4, 0x8F, 0xBF, 0xBF] 0 (by decide)⟩

/-! ## Empty pattern and the caret example -/

/-- C9: with the empty pattern both `replace_substring_robust` and `replace_substring`
return the input string unchanged, whatever the replacement. -/
theorem replace_empty_pattern (s r : List Byte) :
    replace_substring_robust s [] r = some s ∧ replace_substring s [] r = some s := by
  simp [replace_substring_robust, replace_substring]

/-- C5 (counterexample): the rule table applied to the bytes of "t^ʃæt^s" does not yield the
bytes of "ʧætʦ" (CA A7 C3 A6 74 CA A6): the letter `t` before the second caret is not kept. -/
theorem transform_phonemes_caret_drops_t :
    transform_phonemes [0x74, 0x5E, 0xCA, 0x83, 0xC3, 0xA6, 0x74, 0x5E, 0x73]
      ≠ some [0xCA, 0xA7, 0xC3, 0xA6, 0x74, 0xCA, 0xA6] := by
  decide

/-- C5 (amended): the rule table applied to the bytes of "t^ʃæt^s" yields the bytes of "ʧæʦ"
(CA A7 C3 A6 CA A6): the eighth pass, `t^s -> ʦ`, replaces the whole of `t^s`, its `t`
included, and the ninth pass, `t^ʃ -> ʧ`, the whole of `t^ʃ`; the result has no byte `^`
(0x5E). -/
theorem transform_phonemes_caret_cleanup :
    transform_phonemes [0x74, 0x5E, 0xCA, 0x83, 0xC3, 0xA6, 0x74, 0x5E, 0x73]
      = some [0xCA, 0xA7, 0xC3, 0xA6, 0xCA, 0xA6] ∧
    (0x5E : Byte) ∉ ([0xCA, 0xA7, 0xC3, 0xA6, 0xCA, 0xA6] : List Byte) ∧
    E2M[7]? = some ([0x74, 0x5E, 0x73], [0xCA, 0xA6]) ∧
    E2M[8]? = some ([0x74, 0x5E, 0xCA, 0x83], [0xCA, 0xA7]) ∧
    apply_rules (E2M.take 8) [0x74, 0x5E, 0xCA, 0x83, 0xC3, 0xA6, 0x74, 0x5E, 0x73]
      = some [0x74, 0x5E, 0xCA, 0x83, 0xC3, 0xA6, 0xCA, 0xA6] ∧
    apply_rules (E2M.take 9) [0x74, 0x5E, 0xCA, 0x83, 0xC3, 0xA6, 0x74, 0x5E, 0x73]
      = some [0xCA, 0xA7, 0xC3, 0xA6, 0xCA, 0xA6] := by
  decide

/-! ## The stress-removal loop and the decoded characters -/

theorem span_eq {buf : List Byte} {p n : Nat} (h : p + n ≤ buf.length) :
    ((c_str buf).drop p).take n = (buf.drop p).take n := by
  unfold c_str
  rw [List.drop_append_of_le_length (by omega), List.take_append_of_le_length]
  simp; omega

theorem string_append_mem_eq (acc : List Byte) {buf : List Byte} {p n : Nat}
    (h : p + n ≤ buf.length) :
    string_append_mem acc buf p (p + n) = some (acc ++ (buf.drop p).take n) := by
  unfold string_append_mem
  have h1 : p + n ≤ (c_str buf).length := by simp [c_str]; omega
  rw [if_pos h1, Nat.add_sub_cancel_left, span_eq h]

theorem decode_loop_succ (buf : List Byte) (fuel p : Nat) :
    decode_loop buf (fuel + 1) p =
      if byte_at buf p = 0 then []
      else
        match get_next_utf8_char buf p with
        | none => []
        | some (ch, q) => (ch, ((c_str buf).drop p).take (q - p)) :: decode_loop buf fuel q :=
  rfl

theorem decode_loop_step {buf : List Byte} {p : Nat} (fuel : Nat) (h : byte_at buf p ≠ 0) :
    ∃ ch n, get_next_utf8_char buf p = some (ch, p + n) ∧ 1 ≤ n ∧ n ≤ 4 ∧
      p + n ≤ buf.length ∧
      (ch, n) = decode4 (byte_at buf p) (byte_at buf (p + 1)) (byte_at buf (p + 2))
        (byte_at buf (p + 3)) ∧
      decode_loop buf (fuel + 1) p = (ch, (buf.drop p).take n) :: decode_loop buf fuel (p + n) := by
  obtain ⟨ch, n, hg, h1, h4, hle, hd⟩ := get_next_utf8_char_step h
  refine ⟨ch, n, hg, h1, h4, hle, hd, ?_⟩
  rw [decode_loop_succ, if_neg h, hg]
  simp only [Nat.add_sub_cancel_left, span_eq hle]

theorem strip_loop_succ (buf : List Byte) (fuel src : Nat) (acc : List Byte) :
    strip_loop buf (fuel + 1) src acc =
      (rd buf src).bind fun c =>
        if c = 0 then some acc
        else (get_next_utf8_char buf src).bind fun r =>
          if (!is_stress_marker r.1) = true then
            (string_append_mem acc buf src r.2).bind fun w => strip_loop buf fuel r.2 w
          else strip_loop buf fuel r.2 acc := by
  rfl

/-- The loop of `process_phonemes` appends, in order, the spans of the decoded characters
that are not stress markers. -/
theorem strip_loop_eq (buf : List Byte) :
    ∀ (fuel p : Nat) (acc : List Byte), p ≤ buf.length → buf.length - p < fuel →
      strip_loop buf fuel p acc = some (acc ++
        (((decode_loop buf fuel p).filter (fun c => !is_stress_marker c.1)).map
          Prod.snd).flatten) := by
  intro fuel
  induction fuel with
  | zero => intro p acc _ h; omega
  | succ fuel ih =>
    intro p acc hp hf
    rw [strip_loop_succ, rd_eq_byte_at hp]
    by_cases h0 : byte_at buf p = 0
    · simp [decode_loop_succ, h0]
    · obtain ⟨ch, n, hg, h1, _, hle, _, hd⟩ := decode_loop_step fuel h0
      rw [hd, hg]
      simp only [Option.some_bind, if_neg h0]
      by_cases hs : is_stress_marker ch = true
      · simp only [hs, Bool.not_true, Bool.false_eq_true, if_false, List.filter_cons]
        exact ih (p + n) acc hle (by omega)
      · simp only [hs, Bool.not_false, if_true, List.filter_cons, Bool.not_eq_true] 
        rw [string_append_mem_eq acc hle]
        simp only [Option.some_bind]
        rw [ih (p + n) _ hle (by omega)]
        simp

theorem decode_all_of_zero {s : List Byte} (h : byte_at s 0 = 0) : decode_all s = [] := by
  simp [decode_all, decode_loop_succ, h]

theorem decode_loop_eq_decode_all :
    ∀ (m : Nat) (buf : List Byte) (p fuel : Nat), buf.length - p ≤ m → p ≤ buf.length →
      buf.length - p < fuel → decode_loop buf fuel p = decode_all (buf.drop p) := by
  intro m
  induction m with
  | zero =>
    intro buf p fuel hm hp hf
    have hz : byte_at buf p = 0 := by
      have : p = buf.length := by omega
      rw [this]; exact byte_at_length buf
    have hz' : byte_at (buf.drop p) 0 = 0 := by rw [byte_at_drop hp]; exact hz
    rw [decode_all_of_zero hz']
    cases fuel with
    | zero => rfl
    | succ f => simp [decode_loop_succ, hz]
  | succ m ih =>
    intro buf p fuel hm hp hf
    cases fuel with
    | zero => omega
    | succ f =>
      by_cases h0 : byte_at buf p = 0
      · have hz' : byte_at (buf.drop p) 0 = 0 := by rw [byte_at_drop hp]; exact h0
        rw [decode_all_of_zero hz']
        simp [decode_loop_succ, h0]
      · have h0' : byte_at (buf.drop p) 0 ≠ 0 := by rw [byte_at_drop hp]; exact h0
        obtain ⟨ch, n, _, h1, _, hle, hd4, hd⟩ := decode_loop_step f h0
        obtain ⟨ch', n', _, _, _, hle', hd4', hd'⟩ :=
          decode_loop_step (buf.drop p).length h0'
        rw [byte_at_drop hp, byte_at_drop hp, byte_at_drop hp, byte_at_drop hp] at hd4'
        simp only [Nat.add_zero] at hd4'
        have e : (ch', n') = (ch, n) := by rw [hd4', hd4]
        obtain ⟨rfl, rfl⟩ := Prod.mk.inj e
        rw [hd]
        unfold decode_all
        rw [hd']
        simp only [List.drop_zero, Nat.zero_add]
        rw [ih buf (p + n') f (by omega) hle (by omega)]
        have hl : (buf.drop p).length = buf.length - p := List.length_drop p buf
        rw [ih (buf.drop p) n' (buf.drop p).length (by omega) (by omega) (by omega)]
        rw [List.drop_drop]

/-- The decoded characters of a string: the first character, then the decoded characters
of the rest. -/
theorem decode_all_eq {s : List Byte} (h : byte_at s 0 ≠ 0) :
    ∃ ch n, get_next_utf8_char s 0 = some (ch, n) ∧ 1 ≤ n ∧ n ≤ 4 ∧ n ≤ s.length ∧
      (ch, n) = decode4 (byte_at s 0) (byte_at s 1) (byte_at s 2) (byte_at s 3) ∧
      decode_all s = (ch, s.take n) :: decode_all (s.drop n) := by
  obtain ⟨ch, n, hg, h1, h4, hle, hd4, hd⟩ := decode_loop_step s.length h
  simp only [Nat.zero_add, List.drop_zero] at hg hle hd4 hd
  refine ⟨ch, n, hg, h1, h4, hle, hd4, ?_⟩
  unfold decode_all
  rw [hd, decode_loop_eq_decode_all (s.length - n) s n s.length (le_refl _) hle (by omega)]
  rfl

theorem byte_at_cons_zero (b : Byte) (t : List Byte) : byte_at (b :: t) 0 = b.val := by
  simp [byte_at, rd, c_str]

theorem byte_at_nil (i : Nat) : byte_at [] i = 0 := by
  cases i <;> simp [byte_at, rd, c_str]

theorem byte_at_zero_ne_zero {s : List Byte} (hs : s ≠ []) (h0 : (0 : Byte) ∉ s) :
    byte_at s 0 ≠ 0 := by
  cases s with
  | nil => exact absurd rfl hs
  | cons b t =>
    rw [byte_at_cons_zero]
    intro hb
    apply h0
    have : b = 0 := Fin.ext hb
    simp [this]

/-- The spans of the decoded characters are consecutive: together they are a prefix of the
content (the part before the first NUL byte). -/
theorem decode_all_spans_initial :
    ∀ (m : Nat) (s : List Byte), s.length ≤ m →
      ((decode_all s).map Prod.snd).flatten <+: s := by
  intro m
  induction m with
  | zero =>
    intro s hs
    have : s = [] := List.length_eq_zero.mp (by omega)
    subst this
    rw [decode_all_of_zero (byte_at_nil 0)]
    simp
  | succ m ih =>
    intro s hs
    by_cases h0 : byte_at s 0 = 0
    · rw [decode_all_of_zero h0]; simp
    · obtain ⟨ch, n, _, h1, _, hle, _, hd⟩ := decode_all_eq h0
      rw [hd]
      simp only [List.map_cons, List.flatten_cons]
      have hl : (s.drop n).length ≤ m := by rw [List.length_drop]; omega
      have := ih (s.drop n) hl
      conv => rhs; rw [← List.take_append_drop n s]
      exact (List.prefix_append_right_inj _).mpr this

/-- Without NUL bytes the spans of the decoded characters make up the whole content. -/
theorem decode_all_spans_eq :
    ∀ (m : Nat) (s : List Byte), s.length ≤ m → (0 : Byte) ∉ s →
      ((decode_all s).map Prod.snd).flatten = s := by
  intro m
  induction m with
  | zero =>
    intro s hs _
    have : s = [] := List.length_eq_zero.mp (by omega)
    subst this
    rw [decode_all_of_zero (byte_at_nil 0)]
    simp
  | succ m ih =>
    intro s hs hz
    by_cases hnil : s = []
    · subst hnil
      rw [decode_all_of_zero (byte_at_nil 0)]
      simp
    · obtain ⟨ch, n, _, h1, _, hle, _, hd⟩ := decode_all_eq (byte_at_zero_ne_zero hnil hz)
      rw [hd]
      simp only [List.map_cons, List.flatten_cons]
      have hl : (s.drop n).length ≤ m := by rw [List.length_drop]; omega
      rw [ih (s.drop n) hl (fun h => hz (List.mem_of_mem_drop h))]
      exact List.take_append_drop n s

theorem flatten_filter_sublist {α β : Type} (f : α → List β) (q : α → Bool) (l : List α) :
    ((l.filter q).map f).flatten.Sublist (l.map f).flatten := by
  induction l with
  | nil => simp
  | cons a t ih =>
    simp only [List.filter_cons, List.map_cons, List.flatten_cons]
    by_cases h : q a = true
    · simp only [h, if_true, List.map_cons, List.flatten_cons]
      exact List.Sublist.append_left ih _
    · simp only [h, if_false]
      exact List.Sublist.trans ih (List.sublist_append_right _ _)

theorem strip_stress_markers_eq (s : List Byte) :
    strip_stress_markers s = some
      (((decode_all s).filter (fun c => !is_stress_marker c.1)).map Prod.snd).flatten := by
  unfold strip_stress_markers decode_all
  rw [strip_loop_eq s (s.length + 1) 0 [] (Nat.zero_le _) (by omega)]
  simp

/-- C8: the stress-stripped string is the in-order concatenation of the original byte spans
of the decoded characters of `s` that are not stress markers; it is a subsequence of the
bytes of `s`, it is not longer than `s`, and it is `s` itself when `s` has no NUL byte and
none of its decoded characters is a stress marker. -/
theorem strip_stress_markers_spans (s : List Byte) :
    ∃ out, strip_stress_markers s = some out ∧
      out = (((decode_all s).filter (fun c => !is_stress_marker c.1)).map Prod.snd).flatten ∧
      out.Sublist s ∧ out.length ≤ s.length ∧
      ((0 : Byte) ∉ s → (∀ c ∈ decode_all s, is_stress_marker c.1 = false) → out = s) := by
  have hsub : ((((decode_all s).filter (fun c => !is_stress_marker c.1)).map
      Prod.snd).flatten).Sublist s :=
    List.Sublist.trans (flatten_filter_sublist _ _ _)
      (decode_all_spans_initial s.length s (le_refl _)).sublist
  refine ⟨_, strip_stress_markers_eq s, rfl, hsub, hsub.length_le, ?_⟩
  intro hz hall
  have hf : (decode_all s).filter (fun c => !is_stress_marker c.1) = decode_all s := by
    rw [List.filter_eq_self]
    intro c hc
    simp [hall c hc]
  rw [hf]
  exact decode_all_spans_eq s.length s (le_refl _) hz

theorem strip_stress_markers_spans_witness :
    (0 : Byte) ∉ ([0x61, 0xC9, 0xAA] : List Byte) ∧
    (∀ c ∈ decode_all [0x61, 0xC9, 0xAA], is_stress_marker c.1 = false) ∧
    strip_stress_markers [0x61, 0xC9, 0xAA] = some [0x61, 0xC9, 0xAA] := by
  obtain ⟨out, h1, _, _, _, h5⟩ := strip_stress_markers_spans [0x61, 0xC9, 0xAA]
  have e := h5 (by decide) (by decide)
  subst e
  exact ⟨by decide, by decide, h1⟩

/-! ## The library calls `find`, `operator[]` and `append` -/

theorem string_find_at_some {str from_ : List Byte} :
    ∀ (n pos q : Nat), string_find_at str from_ pos n = some q →
      pos ≤ q ∧ q < pos + n ∧ from_ <+: str.drop q ∧
      ∀ r, pos ≤ r → r < q → ¬ from_ <+: str.drop r := by
  intro n
  induction n with
  | zero => intro pos q h; simp [string_find_at] at h
  | succ n ih =>
    intro pos q h
    unfold string_find_at at h
    by_cases hp : from_.isPrefixOf (str.drop pos) = true
    · rw [if_pos hp] at h
      have e : pos = q := Option.some.inj h
      subst e
      exact ⟨le_refl _, by omega, List.isPrefixOf_iff_prefix.mp hp, fun r h1 h2 => by omega⟩
    · rw [if_neg hp] at h
      obtain ⟨h1, h2, h3, h4⟩ := ih (pos + 1) q h
      refine ⟨by omega, by omega, h3, ?_⟩
      intro r hr1 hr2
      by_cases e : r = pos
      · subst e
        exact fun hpre => hp (List.isPrefixOf_iff_prefix.mpr hpre)
      · exact h4 r (by omega) hr2

theorem string_find_at_none {str from_ : List Byte} :
    ∀ (n pos : Nat), string_find_at str from_ pos n = none →
      ∀ r, pos ≤ r → r < pos + n → ¬ from_ <+: str.drop r := by
  intro n
  induction n with
  | zero => intro pos _ r h1 h2; omega
  | succ n ih =>
    intro pos h r hr1 hr2
    unfold string_find_at at h
    by_cases hp : from_.isPrefixOf (str.drop pos) = true
    · rw [if_pos hp] at h; exact absurd h (by simp)
    · rw [if_neg hp] at h
      by_cases e : r = pos
      · subst e
        exact fun hpre => hp (List.isPrefixOf_iff_prefix.mpr hpre)
      · exact ih (pos + 1) h r (by omega) (by omega)

/-- What `str.find(from, pos)` returns when it finds an occurrence: the lowest offset
`q ≥ pos` at which `from_` occurs. -/
theorem string_find_some {str from_ : List Byte} {pos q : Nat}
    (h : string_find str from_ pos = some q) :
    pos ≤ q ∧ q + from_.length ≤ str.length ∧ from_ <+: str.drop q ∧
      ∀ r, pos ≤ r → r < q → ¬ from_ <+: str.drop r := by
  obtain ⟨h1, h2, h3, h4⟩ := string_find_at_some _ _ _ h
  exact ⟨h1, by omega, h3, h4⟩

/-- When `str.find(from, pos)` returns `npos`, the non-empty `from_` does not occur at any
offset `≥ pos`. -/
theorem string_find_none {str from_ : List Byte} {pos : Nat} (hne : from_ ≠ [])
    (h : string_find str from_ pos = none) :
    ∀ r, pos ≤ r → ¬ from_ <+: str.drop r := by
  intro r hr hpre
  have hpos : 0 < from_.length := List.length_pos.mpr hne
  by_cases hlen : r + from_.length ≤ str.length
  · exact string_find_at_none _ _ h r hr (by omega) hpre
  · have h1 := hpre.length_le
    rw [List.length_drop] at h1
    omega

theorem string_at_of_drop {str : List Byte} {pos : Nat} {b : Byte} {r : List Byte}
    (h : str.drop pos = b :: r) : string_at str pos = some b := by
  unfold string_at c_str
  have hlt : pos < str.length := by
    by_contra hc
    rw [List.drop_eq_nil_of_le (by omega)] at h
    exact absurd h (by simp)
  rw [List.getElem?_append_left hlt]
  have := List.getElem?_drop str pos 0
  rw [h] at this
  simpa using this.symm

theorem string_append_sub_some (result : List Byte) {str : List Byte} {pos : Nat} (n : Nat)
    (h : pos ≤ str.length) :
    string_append_sub result str pos (some n) = some (result ++ (str.drop pos).take n) := by
  unfold string_append_sub
  rw [if_neg (by omega)]

theorem string_append_sub_none (result : List Byte) {str : List Byte} {pos : Nat}
    (h : pos ≤ str.length) :
    string_append_sub result str pos none = some (result ++ str.drop pos) := by
  unfold string_append_sub
  rw [if_neg (by omega)]

/-! ## The boundary-checked scan on patterns that do not start with a continuation byte -/

theorem replace_substring_loop_succ (str from_ to_ : List Byte) (fuel lastPos : Nat)
    (result : List Byte) :
    replace_substring_loop str from_ to_ (fuel + 1) lastPos result =
      match string_find str from_ lastPos with
      | none => string_append_sub result str lastPos none
      | some pos =>
        (if pos > 0 then (string_at str pos).map (fun c => !is_utf8_continuation c)
          else some true).bind fun validBoundary =>
          if validBoundary = true then
            (string_append_sub result str lastPos (some (pos - lastPos))).bind fun r =>
              replace_substring_loop str from_ to_ fuel (pos + from_.length) (r ++ to_)
          else replace_substring_loop str from_ to_ fuel lastPos result := by
  conv => lhs; unfold replace_substring_loop
  cases string_find str from_ lastPos with
  | none => rfl
  | some pos =>
    by_cases hp : pos > 0
    · simp only [hp, if_true]; rfl
    · simp only [hp, if_false]; rfl

/-- The scan of `replace_substring`, for a non-empty pattern whose first byte is not a
continuation byte: the rest of the string is cut into gaps, each followed by an occurrence of
the pattern, and a tail; the result keeps the gaps and the tail and puts the replacement in the
place of each occurrence. No occurrence starts inside a gap or in the tail. -/
theorem replace_substring_loop_ok {str from_ to_ : List Byte} (hne : from_ ≠ [])
    (hb : ∀ b r, from_ = b :: r → is_utf8_continuation b = false) :
    ∀ (fuel lastPos : Nat) (result : List Byte), lastPos ≤ str.length →
      str.length - lastPos < fuel →
      ∃ (gaps : List (List Byte)) (tail : List Byte), str.drop lastPos = (gaps.map (· ++ from_)).flatten ++ tail ∧
        replace_substring_loop str from_ to_ fuel lastPos result =
          some (result ++ ((gaps.map (· ++ to_)).flatten ++ tail)) ∧
        (∀ r, ¬ from_ <+: tail.drop r) ∧
        (∀ g ∈ gaps, ∀ r, r < g.length → ¬ from_ <+: (g ++ from_).drop r) := by
  intro fuel
  induction fuel with
  | zero => intro lastPos _ _ h; omega
  | succ fuel ih =>
    intro lastPos result hl hf
    rw [replace_substring_loop_succ]
    cases hfind : string_find str from_ lastPos with
    | none =>
      refine ⟨[], str.drop lastPos, by simp, ?_, ?_, by simp⟩
      · simp [string_append_sub_none result hl]
      · intro r
        rw [List.drop_drop]
        exact string_find_none hne hfind _ (by omega)
    | some pos =>
      obtain ⟨h1, h2, h3, h4⟩ := string_find_some hfind
      have hpos : 0 < from_.length := List.length_pos.mpr hne
      obtain ⟨t, ht⟩ := h3
      have hvb : (if pos > 0 then (string_at str pos).map (fun c => !is_utf8_continuation c)
          else some true) = some true := by
        cases hfrom : from_ with
        | nil => exact absurd hfrom hne
        | cons b r =>
          have hd : str.drop pos = b :: (r ++ t) := by rw [← ht, hfrom]; rfl
          by_cases hp : pos > 0
          · rw [if_pos hp, string_at_of_drop hd]
            simp [hb b r hfrom]
          · rw [if_neg hp]
      have hdrop : str.drop (pos + from_.length) = t := by
        rw [← List.drop_drop, ← ht, List.drop_left]
      have hsplit : str.drop lastPos = (str.drop lastPos).take (pos - lastPos) ++ (from_ ++ t) := by
        rw [ht]
        have : str.drop pos = (str.drop lastPos).drop (pos - lastPos) := by
          rw [List.drop_drop]; congr 1; omega
        rw [this, List.take_append_drop]
      have hlen : ((str.drop lastPos).take (pos - lastPos)).length = pos - lastPos := by
        rw [List.length_take, List.length_drop]; omega
      obtain ⟨g, hgd⟩ : ∃ g, (str.drop lastPos).take (pos - lastPos) = g := ⟨_, rfl⟩
      rw [hgd] at hsplit hlen
      obtain ⟨gaps, tail, hg1, hg2, hg3, hg4⟩ :=
        ih (pos + from_.length) (result ++ g ++ to_) h2 (by omega)
      refine ⟨g :: gaps, tail, ?_, ?_, hg3, ?_⟩
      · rw [hsplit]
        simp only [List.map_cons, List.flatten_cons, List.append_assoc]
        rw [← hg1, hdrop]
      · simp only [hvb, Option.some_bind, if_true, string_append_sub_some result _ hl, hgd]
        rw [hg2]
        simp
      · intro g' hg r hr
        rcases List.mem_cons.mp hg with rfl | hmem
        · intro hpre
          apply h4 (lastPos + r) (by omega) (by omega)
          rw [← List.drop_drop, hsplit, ← List.append_assoc,
            List.drop_append_of_le_length (by rw [List.length_append]; omega)]
          exact hpre.trans (List.prefix_append _ _)
        · exact hg4 g' hmem r hr

/-! ## The character-scanning loop -/

theorem replace_substring_robust_loop_succ (str from_ to_ : List Byte) (fuel strPos : Nat)
    (result : List Byte) :
    replace_substring_robust_loop str from_ to_ (fuel + 1) strPos result =
      (rd str strPos).bind fun c =>
        if c = 0 then some result
        else (string_compare_eq str strPos from_.length from_).bind fun m =>
          if m = true then
            replace_substring_robust_loop str from_ to_ fuel (strPos + from_.length)
              (result ++ to_)
          else (get_next_utf8_char str strPos).bind fun r =>
            (string_append_mem result str strPos r.2).bind fun w =>
              replace_substring_robust_loop str from_ to_ fuel r.2 w := by
  rfl

theorem string_compare_eq_iff {str : List Byte} {pos : Nat} (from_ : List Byte)
    (h : pos ≤ str.length) :
    string_compare_eq str pos from_.length from_ = some (decide (from_ <+: str.drop pos)) := by
  unfold string_compare_eq
  rw [if_neg (by omega)]
  congr 1
  rw [decide_eq_decide, List.prefix_iff_eq_take]
  exact eq_comm

/-- The character-scanning loop returns, for every string and every non-empty pattern, and
what it appends is described by `RobustScan` on the rest of the string. -/
theorem replace_substring_robust_loop_ok {str from_ to_ : List Byte} (hne : from_ ≠ []) :
    ∀ (fuel p : Nat) (acc : List Byte), p ≤ str.length → str.length - p < fuel →
      ∃ out, replace_substring_robust_loop str from_ to_ fuel p acc = some (acc ++ out) ∧
        RobustScan from_ to_ (str.drop p) out := by
  intro fuel
  induction fuel with
  | zero => intro p _ _ h; omega
  | succ fuel ih =>
    intro p acc hp hf
    rw [replace_substring_robust_loop_succ, rd_eq_byte_at hp, string_compare_eq_iff from_ hp]
    have hb0 : byte_at (str.drop p) 0 = byte_at str p := byte_at_drop hp 0
    by_cases h0 : byte_at str p = 0
    · exact ⟨[], by simp [h0], RobustScan.stop (by rw [hb0]; exact h0)⟩
    · have h0' : byte_at (str.drop p) 0 ≠ 0 := by rw [hb0]; exact h0
      have hpos : 0 < from_.length := List.length_pos.mpr hne
      simp only [Option.some_bind, if_neg h0]
      by_cases hm : from_ <+: str.drop p
      · have hle : p + from_.length ≤ str.length := by
          have := hm.length_le
          rw [List.length_drop] at this
          have := byte_at_ne_zero h0
          omega
        obtain ⟨out, ho, hs⟩ := ih (p + from_.length) (acc ++ to_) hle (by omega)
        refine ⟨to_ ++ out, ?_, RobustScan.hit h0' hm ?_⟩
        · simp only [hm, decide_True, if_true, ho, List.append_assoc]
        · rw [List.drop_drop]; exact hs
      · obtain ⟨ch, n, hg, h1, _, hle, _⟩ := get_next_utf8_char_step h0
        obtain ⟨out, ho, hs⟩ := ih (p + n) (acc ++ (str.drop p).take n) hle (by omega)
        have hg' : get_next_utf8_char (str.drop p) 0 = some (ch, n) := by
          have := get_next_utf8_char_drop hp
          rw [hg] at this
          cases hq : get_next_utf8_char (str.drop p) 0 with
          | none => rw [hq] at this; simp at this
          | some r =>
            rw [hq] at this
            simp only [Option.map_some', Option.some.injEq, Prod.mk.injEq] at this
            obtain ⟨e1, e2⟩ := this
            have e3 : r.2 = n := by omega
            rw [← e3, e1]
        refine ⟨(str.drop p).take n ++ out, ?_, RobustScan.skip h0' hm hg' ?_⟩
        · simp only [hm, decide_False, Bool.false_eq_true, if_false, hg, Option.some_bind,
            string_append_mem_eq acc hle, ho, List.append_assoc]
        · rw [List.drop_drop]; exact hs

/-! ## Totality of the rewrite passes and of the pipeline -/

theorem not_continuation_of_lt {b : Byte} (h : b.val < 0x80) : is_utf8_continuation b = false := by
  unfold is_utf8_continuation
  have := and_C0 b.isLt
  cases hc : (b.val &&& 0xC0 == 0x80) with
  | false => rfl
  | true =>
    have h2 := this.mp (by simpa using hc)
    omega

/-- What one rewrite pass does, by the shape of the pattern: nothing for the empty pattern;
the boundary-checked scan for a pattern of bytes `< 0x80`, in which every occurrence found is
accepted; the character-scanning loop for a pattern with a byte `≥ 0x80`. In all three cases
the pass returns. -/
theorem replace_substring_robust_cases (str from_ to_ : List Byte) :
    (from_ = [] ∧ replace_substring_robust str from_ to_ = some str) ∨
    (from_ ≠ [] ∧ (∀ b ∈ from_, b.val < 0x80) ∧
      ∃ (gaps : List (List Byte)) (tail : List Byte),
        str = (gaps.map (· ++ from_)).flatten ++ tail ∧
        replace_substring_robust str from_ to_ = some ((gaps.map (· ++ to_)).flatten ++ tail) ∧
        (∀ r, ¬ from_ <+: tail.drop r) ∧
        (∀ g ∈ gaps, ∀ r, r < g.length → ¬ from_ <+: (g ++ from_).drop r)) ∨
    (from_ ≠ [] ∧ (∃ b ∈ from_, 0x80 ≤ b.val) ∧
      ∃ out, replace_substring_robust str from_ to_ = some out ∧ RobustScan from_ to_ str out) := by
  by_cases hne : from_ = []
  · left
    subst hne
    exact ⟨rfl, by simp [replace_substring_robust]⟩
  · right
    have hemp : from_.isEmpty = false := by
      cases from_ with
      | nil => exact absurd rfl hne
      | cons b r => rfl
    by_cases hmb : ∃ b ∈ from_, 0x80 ≤ b.val
    · right
      refine ⟨hne, hmb, ?_⟩
      have hany : from_.any (fun c => decide (c.val ≥ 0x80)) = true := by
        rw [List.any_eq_true]
        obtain ⟨b, hb, hb2⟩ := hmb
        exact ⟨b, hb, by simpa using hb2⟩
      obtain ⟨out, ho, hs⟩ :=
        @replace_substring_robust_loop_ok str from_ to_ hne (str.length + 1) 0 []
          (Nat.zero_le _) (by omega)
      refine ⟨out, ?_, by simpa using hs⟩
      unfold replace_substring_robust
      simp only [hemp, Bool.false_eq_true, if_false, hany, Bool.not_true]
      simpa using ho
    · left
      have hall : ∀ b ∈ from_, b.val < 0x80 := by
        intro b hb
        by_contra hc
        exact hmb ⟨b, hb, by omega⟩
      refine ⟨hne, hall, ?_⟩
      have hany : from_.any (fun c => decide (c.val ≥ 0x80)) = false := by
        rw [List.any_eq_false]
        intro b hb
        have := hall b hb
        simp; omega
      have hfirst : ∀ b r, from_ = b :: r → is_utf8_continuation b = false := by
        intro b r e
        exact not_continuation_of_lt (hall b (by simp [e]))
      obtain ⟨gaps, tail, h1, h2, h3, h4⟩ :=
        @replace_substring_loop_ok str from_ to_ hne hfirst (str.length + 1) 0 []
          (Nat.zero_le _) (by omega)
      refine ⟨gaps, tail, by simpa using h1, ?_, h3, h4⟩
      unfold replace_substring_robust replace_substring
      simp only [hemp, Bool.false_eq_true, if_false, hany, Bool.not_false, if_true]
      simpa using h2

theorem replace_substring_robust_total (str from_ to_ : List Byte) :
    ∃ out, replace_substring_robust str from_ to_ = some out := by
  rcases replace_substring_robust_cases str from_ to_ with
    ⟨_, h⟩ | ⟨_, _, _, _, _, h, _⟩ | ⟨_, _, _, h, _⟩
  · exact ⟨_, h⟩
  · exact ⟨_, h⟩
  · exact ⟨_, h⟩

theorem apply_rules_total (rules : List (List Byte × List Byte)) :
    ∀ s, ∃ out, apply_rules rules s = some out := by
  induction rules with
  | nil => intro s; exact ⟨s, rfl⟩
  | cons pair rest ih =>
    intro s
    obtain ⟨mid, hmid⟩ := replace_substring_robust_total s pair.1 pair.2
    obtain ⟨out, hout⟩ := ih mid
    exact ⟨out, by simp [apply_rules, hmid, hout]⟩

theorem process_phonemes_some (buf : List Byte) :
    process_phonemes (some buf) = (strip_stress_markers buf).bind transform_phonemes := rfl

theorem transform_phonemes_eq (s : List Byte) : transform_phonemes s = apply_rules E2M s := rfl

/-- C10: `process_phonemes` returns a string for every argument, the null pointer and every
NUL-terminated byte sequence `buf`: the stress-removal loop returns, every run of the first
`k` of the 17 rewrite passes of the table returns, and no read outside the buffer, exception
or unbounded loop is reached. -/
theorem process_phonemes_total (phonemes : Option (List Byte)) (buf : List Byte) :
    E2M.length = 17 ∧
    (∃ stripped, strip_stress_markers buf = some stripped ∧
      ∀ k, ∃ out, apply_rules (E2M.take k) stripped = some out) ∧
    ∃ out, process_phonemes phonemes = some out := by
  refine ⟨rfl, ⟨_, strip_stress_markers_eq buf, fun k => apply_rules_total _ _⟩, ?_⟩
  cases phonemes with
  | none => exact ⟨[], rfl⟩
  | some buf =>
    obtain ⟨out, ho⟩ := apply_rules_total E2M
      (((decode_all buf).filter (fun c => !is_stress_marker c.1)).map Prod.snd).flatten
    refine ⟨out, ?_⟩
    rw [process_phonemes_some, strip_stress_markers_eq, Option.some_bind,
      transform_phonemes_eq, ho]


/-! ## Valid UTF-8 -/

theorem valid_utf8_cons (b0 : Byte) (rest : List Byte) :
    valid_utf8 (b0 :: rest) =
      if b0.val < 0x80 then valid_utf8 rest
      else if b0.val < 0xE0 then
        match rest with
        | b1 :: r => valid_char [b0, b1] && valid_utf8 r
        | _ => false
      else if b0.val < 0xF0 then
        match rest with
        | b1 :: b2 :: r => valid_char [b0, b1, b2] && valid_utf8 r
        | _ => false
      else
        match rest with
        | b1 :: b2 :: b3 :: r => valid_char [b0, b1, b2, b3] && valid_utf8 r
        | _ => false := by
  match rest with
  | [] => rfl
  | [_] => rfl
  | [_, _] => rfl
  | _ :: _ :: _ :: _ => rfl

/-- A well-formed character in front of a string does not change whether it is valid. -/
theorem valid_utf8_char_append {c : List Byte} (hc : valid_char c = true) (rest : List Byte) :
    valid_utf8 (c ++ rest) = valid_utf8 rest := by
  match c, hc with
  | [b0], hc =>
    simp only [valid_char, decide_eq_true_eq] at hc
    simp only [List.singleton_append, valid_utf8_cons, if_pos hc]
  | [b0, b1], hc =>
    have hc' := hc
    simp only [valid_char, decide_eq_true_eq] at hc'
    have h1 : ¬ b0.val < 0x80 := by omega
    have h2 : b0.val < 0xE0 := by omega
    simp only [List.cons_append, List.nil_append, valid_utf8_cons b0, if_neg h1, if_pos h2, hc,
      Bool.true_and]
  | [b0, b1, b2], hc =>
    have hc' := hc
    simp only [valid_char, decide_eq_true_eq] at hc'
    have h1 : ¬ b0.val < 0x80 := by omega
    have h2 : ¬ b0.val < 0xE0 := by omega
    have h3 : b0.val < 0xF0 := by omega
    simp only [List.cons_append, List.nil_append, valid_utf8_cons b0, if_neg h1, if_neg h2,
      if_pos h3, hc, Bool.true_and]
  | [b0, b1, b2, b3], hc =>
    have hc' := hc
    simp only [valid_char, decide_eq_true_eq] at hc'
    have h1 : ¬ b0.val < 0x80 := by omega
    have h2 : ¬ b0.val < 0xE0 := by omega
    have h3 : ¬ b0.val < 0xF0 := by omega
    simp only [List.cons_append, List.nil_append, valid_utf8_cons b0, if_neg h1, if_neg h2,
      if_neg h3, hc, Bool.true_and]
  | [], hc => simp [valid_char] at hc
  | _ :: _ :: _ :: _ :: _ :: _, hc => simp [valid_char] at hc

theorem valid_char_length {c : List Byte} (hc : valid_char c = true) :
    1 ≤ c.length ∧ c.length ≤ 4 := by
  match c, hc with
  | [_], _ => simp
  | [_, _], _ => simp
  | [_, _, _], _ => simp
  | [_, _, _, _], _ => simp
  | [], hc => simp [valid_char] at hc
  | _ :: _ :: _ :: _ :: _ :: _, hc => simp [valid_char] at hc

/-- A non-empty valid string starts with a well-formed character and goes on with a valid
string. -/
theorem valid_utf8_split {s : List Byte} (hv : valid_utf8 s = true) (hs : s ≠ []) :
    ∃ c rest, s = c ++ rest ∧ valid_char c = true ∧ valid_utf8 rest = true := by
  cases s with
  | nil => exact absurd rfl hs
  | cons b0 rest =>
    rw [valid_utf8_cons] at hv
    by_cases h1 : b0.val < 0x80
    · rw [if_pos h1] at hv
      exact ⟨[b0], rest, rfl, by simp [valid_char, h1], hv⟩
    · rw [if_neg h1] at hv
      by_cases h2 : b0.val < 0xE0
      · rw [if_pos h2] at hv
        match rest, hv with
        | b1 :: r, hv =>
          simp only [Bool.and_eq_true] at hv
          exact ⟨[b0, b1], r, rfl, hv.1, hv.2⟩
        | [], hv => simp at hv
      · rw [if_neg h2] at hv
        by_cases h3 : b0.val < 0xF0
        · rw [if_pos h3] at hv
          match rest, hv with
          | b1 :: b2 :: r, hv =>
            simp only [Bool.and_eq_true] at hv
            exact ⟨[b0, b1, b2], r, rfl, hv.1, hv.2⟩
          | [], hv => simp at hv
          | [_], hv => simp at hv
        · rw [if_neg h3] at hv
          match rest, hv with
          | b1 :: b2 :: b3 :: r, hv =>
            simp only [Bool.and_eq_true] at hv
            exact ⟨[b0, b1, b2, b3], r, rfl, hv.1, hv.2⟩
          | [], hv => simp at hv
          | [_], hv => simp at hv
          | [_, _], hv => simp at hv

/-- Induction over the characters of a valid string. -/
theorem valid_utf8_induction {P : List Byte → Prop} (hnil : P [])
    (hstep : ∀ c rest, valid_char c = true → valid_utf8 rest = true → P rest → P (c ++ rest)) :
    ∀ s, valid_utf8 s = true → P s := by
  have key : ∀ (m : Nat) (s : List Byte), s.length ≤ m → valid_utf8 s = true → P s := by
    intro m
    induction m with
    | zero =>
      intro s hs _
      have : s = [] := List.length_eq_zero.mp (by omega)
      rw [this]; exact hnil
    | succ m ih =>
      intro s hs hv
      by_cases hne : s = []
      · rw [hne]; exact hnil
      · obtain ⟨c, rest, rfl, hc, hr⟩ := valid_utf8_split hv hne
        have := valid_char_length hc
        rw [List.length_append] at hs
        exact hstep c rest hc hr (ih rest (by omega) hr)
  intro s hv
  exact key s.length s (le_refl _) hv

theorem valid_utf8_of_char {c : List Byte} (hc : valid_char c = true) : valid_utf8 c = true := by
  have := valid_utf8_char_append hc []
  rw [List.append_nil] at this
  rw [this]; rfl

theorem valid_utf8_append {a b : List Byte} (ha : valid_utf8 a = true)
    (hb : valid_utf8 b = true) : valid_utf8 (a ++ b) = true := by
  revert ha
  refine valid_utf8_induction (P := fun a => valid_utf8 (a ++ b) = true) ?_ ?_ a
  · simpa using hb
  · intro c rest hc _ ih
    show valid_utf8 ((c ++ rest) ++ b) = true
    rw [List.append_assoc, valid_utf8_char_append hc]
    exact ih

theorem valid_utf8_cancel {a b : List Byte} (ha : valid_utf8 a = true)
    (hab : valid_utf8 (a ++ b) = true) : valid_utf8 b = true := by
  revert hab
  revert ha
  refine valid_utf8_induction (P := fun a => valid_utf8 (a ++ b) = true → valid_utf8 b = true)
    ?_ ?_ a
  · intro h; simpa using h
  · intro c rest hc _ ih h
    rw [List.append_assoc, valid_utf8_char_append hc] at h
    exact ih h

theorem valid_utf8_of_ascii : ∀ (s : List Byte), (∀ b ∈ s, b.val < 0x80) → valid_utf8 s = true := by
  intro s
  induction s with
  | nil => intro _; rfl
  | cons b t ih =>
    intro h
    have hb : b.val < 0x80 := h b (by simp)
    rw [valid_utf8_cons, if_pos hb]
    exact ih (fun x hx => h x (by simp [hx]))

/-- A valid string is cut at a byte `< 0x80` only between characters: the part before such a
byte is valid. -/
theorem valid_utf8_before_ascii {x : Byte} (hx : x.val < 0x80) (r : List Byte) :
    ∀ (m : Nat) (a : List Byte), a.length ≤ m → valid_utf8 (a ++ x :: r) = true →
      valid_utf8 a = true := by
  intro m
  induction m with
  | zero =>
    intro a ha _
    have : a = [] := List.length_eq_zero.mp (by omega)
    rw [this]; rfl
  | succ m ih =>
    intro a ha hv
    by_cases hne : a = []
    · rw [hne]; rfl
    · obtain ⟨c, rest, heq, hc, hr⟩ := valid_utf8_split hv (by simp)
      match c, hc with
      | [b0], hc =>
        match a, hne, ha, heq with
        | a0 :: t, _, ha, heq =>
          simp only [List.cons_append, List.nil_append, List.cons.injEq] at heq
          obtain ⟨rfl, e⟩ := heq
          have ht := ih t (by simp at ha; omega) (by rw [e]; exact hr)
          have := valid_utf8_char_append hc t
          simp only [List.singleton_append] at this
          rw [this]; exact ht
      | [b0, b1], hc =>
        have hc' := hc
        simp only [valid_char, decide_eq_true_eq] at hc'
        match a, hne, ha, heq with
        | [a0], _, _, heq =>
          simp only [List.cons_append, List.nil_append, List.cons.injEq] at heq
          obtain ⟨_, rfl, _⟩ := heq
          omega
        | a0 :: a1 :: t, _, ha, heq =>
          simp only [List.cons_append, List.nil_append, List.cons.injEq] at heq
          obtain ⟨rfl, rfl, e⟩ := heq
          have ht := ih t (by simp at ha; omega) (by rw [e]; exact hr)
          have := valid_utf8_char_append hc t
          simp only [List.cons_append, List.nil_append] at this
          rw [this]; exact ht
      | [b0, b1, b2], hc =>
        have hc' := hc
        simp only [valid_char, decide_eq_true_eq] at hc'
        match a, hne, ha, heq with
        | [a0], _, _, heq =>
          simp only [List.cons_append, List.nil_append, List.cons.injEq] at heq
          obtain ⟨_, rfl, _⟩ := heq
          omega
        | [a0, a1], _, _, heq =>
          simp only [List.cons_append, List.nil_append, List.cons.injEq] at heq
          obtain ⟨_, _, rfl, _⟩ := heq
          omega
        | a0 :: a1 :: a2 :: t, _, ha, heq =>
          simp only [List.cons_append, List.nil_append, List.cons.injEq] at heq
          obtain ⟨rfl, rfl, rfl, e⟩ := heq
          have ht := ih t (by simp at ha; omega) (by rw [e]; exact hr)
          have := valid_utf8_char_append hc t
          simp only [List.cons_append, List.nil_append] at this
          rw [this]; exact ht
      | [b0, b1, b2, b3], hc =>
        have hc' := hc
        simp only [valid_char, decide_eq_true_eq] at hc'
        match a, hne, ha, heq with
        | [a0], _, _, heq =>
          simp only [List.cons_append, List.nil_append, List.cons.injEq] at heq
          obtain ⟨_, rfl, _⟩ := heq
          omega
        | [a0, a1], _, _, heq =>
          simp only [List.cons_append, List.nil_append, List.cons.injEq] at heq
          obtain ⟨_, _, rfl, _⟩ := heq
          omega
        | [a0, a1, a2], _, _, heq =>
          simp only [List.cons_append, List.nil_append, List.cons.injEq] at heq
          obtain ⟨_, _, _, rfl, _⟩ := heq
          omega
        | a0 :: a1 :: a2 :: a3 :: t, _, ha, heq =>
          simp only [List.cons_append, List.nil_append, List.cons.injEq] at heq
          obtain ⟨rfl, rfl, rfl, rfl, e⟩ := heq
          have ht := ih t (by simp at ha; omega) (by rw [e]; exact hr)
          have := valid_utf8_char_append hc t
          simp only [List.cons_append, List.nil_append] at this
          rw [this]; exact ht
      | [], hc => simp [valid_char] at hc
      | _ :: _ :: _ :: _ :: _ :: _, hc => simp [valid_char] at hc

/-! ## Decoding and re-encoding one well-formed character -/

theorem byte_at_cons_succ (b : Byte) (t : List Byte) (i : Nat) :
    byte_at (b :: t) (i + 1) = byte_at t i := by
  simp [byte_at, rd, c_str]

theorem to_char_val (b : Byte) : to_char b.val = b := by
  apply Fin.ext
  show b.val % 256 = b.val
  exact Nat.mod_eq_of_lt b.isLt

theorem to_char_eq {x : Nat} {b : Byte} (h : x = b.val) : to_char x = b := by
  rw [h]; exact to_char_val b

theorem or_80 (x : Nat) (h : x < 64) : 0x80 ||| x = 128 + x := by
  have := Nat.mul_add_lt_is_or (i := 7) (b := x) (by omega) 1
  simpa using this.symm

theorem or_C0 (x : Nat) (h : x < 64) : 0xC0 ||| x = 192 + x := by
  have := Nat.mul_add_lt_is_or (i := 6) (b := x) (by omega) 3
  simpa using this.symm

theorem or_E0 (x : Nat) (h : x < 32) : 0xE0 ||| x = 224 + x := by
  have := Nat.mul_add_lt_is_or (i := 5) (b := x) (by omega) 7
  simpa using this.symm

theorem or_F0 (x : Nat) (h : x < 16) : 0xF0 ||| x = 240 + x := by
  have := Nat.mul_add_lt_is_or (i := 4) (b := x) (by omega) 15
  simpa using this.symm

theorem and_3F (x : Nat) : x &&& 0x3F = x % 64 := Nat.and_pow_two_sub_one_eq_mod x 6

theorem shr_6 (x : Nat) : x >>> 6 = x / 64 := Nat.shiftRight_eq_div_pow x 6

theorem shr_12 (x : Nat) : x >>> 12 = x / 4096 := Nat.shiftRight_eq_div_pow x 12

theorem shr_18 (x : Nat) : x >>> 18 = x / 262144 := Nat.shiftRight_eq_div_pow x 18

/-- What `append_utf8_char` writes, in arithmetic form. -/
theorem append_utf8_char_eq (ch : Nat) (buffer : List Byte) :
    append_utf8_char ch buffer =
      if ch < 0x80 then buffer ++ [to_char ch]
      else if ch < 0x800 then buffer ++ [to_char (192 + ch / 64), to_char (128 + ch % 64)]
      else if ch < 0x10000 then
        buffer ++ [to_char (224 + ch / 4096), to_char (128 + ch / 64 % 64),
          to_char (128 + ch % 64)]
      else if ch < 0x110000 then
        buffer ++ [to_char (240 + ch / 262144), to_char (128 + ch / 4096 % 64),
          to_char (128 + ch / 64 % 64), to_char (128 + ch % 64)]
      else buffer := by
  unfold append_utf8_char
  simp only [and_3F, shr_6, shr_12, shr_18]
  have m : ∀ x : Nat, x % 64 < 64 := fun x => Nat.mod_lt x (by decide)
  by_cases h1 : ch < 0x80
  · simp only [if_pos h1]
  · simp only [if_neg h1]
    by_cases h2 : ch < 0x800
    · simp only [if_pos h2]
      rw [or_C0 (ch / 64) (by omega), or_80 _ (m ch)]
    · simp only [if_neg h2]
      by_cases h3 : ch < 0x10000
      · simp only [if_pos h3]
        rw [or_E0 (ch / 4096) (by omega), or_80 _ (m ch), or_80 _ (m (ch / 64))]
      · simp only [if_neg h3]
        by_cases h4 : ch < 0x110000
        · simp only [if_pos h4]
          rw [or_F0 (ch / 262144) (by omega), or_80 _ (m ch), or_80 _ (m (ch / 64)),
            or_80 _ (m (ch / 4096))]
        · simp only [if_neg h4]

/-- A well-formed character other than NUL, followed by anything: the decoder reads exactly
its bytes, stops right after them, and `append_utf8_char` writes the same bytes back for the
decoded code point. -/
theorem valid_char_decode {c : List Byte} (hc : valid_char c = true) (h0 : c ≠ [0]) :
    ∃ cp, (∀ rest, get_next_utf8_char (c ++ rest) 0 = some (cp, c.length) ∧
        byte_at (c ++ rest) 0 ≠ 0) ∧
      (∀ buffer, append_utf8_char cp buffer = buffer ++ c) := by
  match c, hc, h0 with
  | [b0], hc, h0 =>
    simp only [valid_char, decide_eq_true_eq] at hc
    have hb0 : b0.val ≠ 0 := by
      intro h
      apply h0
      have : b0 = 0 := Fin.ext h
      rw [this]
    refine ⟨b0.val, ?_, ?_⟩
    · intro rest
      rw [get_next_utf8_char_eq (Nat.zero_le _)]
      simp only [List.singleton_append, byte_at_cons_zero, Nat.zero_add]
      refine ⟨?_, hb0⟩
      unfold decode4
      simp [hc]
    · intro buffer
      rw [append_utf8_char_eq, if_pos hc, to_char_val]
  | [b0, b1], hc, _ =>
    simp only [valid_char, decide_eq_true_eq] at hc
    refine ⟨b0.val % 32 * 64 + b1.val % 64, ?_, ?_⟩
    · intro rest
      rw [get_next_utf8_char_eq (Nat.zero_le _)]
      simp only [List.cons_append, List.nil_append, byte_at_cons_zero, Nat.zero_add,
        byte_at_cons_succ]
      refine ⟨?_, by omega⟩
      unfold decode4
      rw [if_neg (by omega), if_pos (by omega)]
      rfl
    · intro buffer
      rw [append_utf8_char_eq, if_neg (by omega), if_pos (by omega)]
      rw [to_char_eq (b := b0) (by omega), to_char_eq (b := b1) (by omega)]
  | [b0, b1, b2], hc, _ =>
    simp only [valid_char, decide_eq_true_eq] at hc
    refine ⟨b0.val % 16 * 4096 + b1.val % 64 * 64 + b2.val % 64, ?_, ?_⟩
    · intro rest
      rw [get_next_utf8_char_eq (Nat.zero_le _)]
      simp only [List.cons_append, List.nil_append, byte_at_cons_zero, Nat.zero_add,
        byte_at_cons_succ]
      refine ⟨?_, by omega⟩
      unfold decode4
      rw [if_neg (by omega), if_neg (by omega), if_pos (by omega)]
      rfl
    · intro buffer
      rw [append_utf8_char_eq, if_neg (by omega), if_neg (by omega), if_pos (by omega)]
      rw [to_char_eq (b := b0) (by omega), to_char_eq (b := b1) (by omega),
        to_char_eq (b := b2) (by omega)]
  | [b0, b1, b2, b3], hc, _ =>
    simp only [valid_char, decide_eq_true_eq] at hc
    refine ⟨b0.val % 8 * 262144 + b1.val % 64 * 4096 + b2.val % 64 * 64 + b3.val % 64, ?_, ?_⟩
    · intro rest
      rw [get_next_utf8_char_eq (Nat.zero_le _)]
      simp only [List.cons_append, List.nil_append, byte_at_cons_zero, Nat.zero_add,
        byte_at_cons_succ]
      refine ⟨?_, by omega⟩
      unfold decode4
      rw [if_neg (by omega), if_neg (by omega), if_neg (by omega), if_pos (by omega)]
      rfl
    · intro buffer
      rw [append_utf8_char_eq, if_neg (by omega), if_neg (by omega), if_neg (by omega),
        if_pos (by omega)]
      rw [to_char_eq (b := b0) (by omega), to_char_eq (b := b1) (by omega),
        to_char_eq (b := b2) (by omega), to_char_eq (b := b3) (by omega)]
  | [], hc, _ => simp [valid_char] at hc
  | _ :: _ :: _ :: _ :: _ :: _, hc, _ => simp [valid_char] at hc

/-! ## The decoded characters of a valid string -/

theorem decode_all_nul (rest : List Byte) : decode_all ((0 : Byte) :: rest) = [] :=
  decode_all_of_zero (by rw [byte_at_cons_zero]; rfl)

/-- In front of any string, a well-formed character other than NUL is decoded as one
character whose span is the character itself. -/
theorem decode_all_char {c : List Byte} (hc : valid_char c = true) (h0 : c ≠ [0]) :
    ∃ cp, (∀ rest, decode_all (c ++ rest) = (cp, c) :: decode_all rest) ∧
      (∀ buffer, append_utf8_char cp buffer = buffer ++ c) := by
  obtain ⟨cp, hdec, henc⟩ := valid_char_decode hc h0
  refine ⟨cp, ?_, henc⟩
  intro rest
  obtain ⟨hg, hb⟩ := hdec rest
  obtain ⟨ch, n, hg', _, _, _, _, hd⟩ := decode_all_eq hb
  rw [hg] at hg'
  simp only [Option.some.injEq, Prod.mk.injEq] at hg'
  obtain ⟨rfl, rfl⟩ := hg'
  rw [hd, List.take_left, List.drop_left]

theorem valid_char_nul_cases {c : List Byte} (h : c = [0]) (rest : List Byte) :
    decode_all (c ++ rest) = [] := by
  rw [h]; exact decode_all_nul rest

/-- The spans of the decoded characters of a valid string are well-formed characters. -/
theorem decode_all_valid_chars :
    ∀ s, valid_utf8 s = true → ∀ x ∈ decode_all s, valid_char x.2 = true := by
  refine valid_utf8_induction ?_ ?_
  · intro x hx
    rw [decode_all_of_zero (byte_at_nil 0)] at hx
    simp at hx
  · intro c rest hc _ ih x hx
    by_cases h0 : c = [0]
    · rw [valid_char_nul_cases h0] at hx
      simp at hx
    · obtain ⟨cp, hd, _⟩ := decode_all_char hc h0
      rw [hd rest] at hx
      rcases List.mem_cons.mp hx with rfl | hmem
      · exact hc
      · exact ih x hmem

theorem valid_utf8_flatten (l : List (List Byte)) (h : ∀ c ∈ l, valid_char c = true) :
    valid_utf8 l.flatten = true := by
  induction l with
  | nil => rfl
  | cons c t ih =>
    rw [List.flatten_cons, valid_utf8_char_append (h c (by simp))]
    exact ih (fun x hx => h x (by simp [hx]))

/-- Stress removal keeps a valid string valid. -/
theorem strip_valid {s : List Byte} (hv : valid_utf8 s = true) :
    valid_utf8 (((decode_all s).filter (fun c => !is_stress_marker c.1)).map
      Prod.snd).flatten = true := by
  apply valid_utf8_flatten
  intro c hc
  obtain ⟨x, hx, rfl⟩ := List.mem_map.mp hc
  exact decode_all_valid_chars s hv x (List.mem_of_mem_filter hx)

/-- Decoding the kept spans of a valid string gives back the kept characters. -/
theorem decode_all_filter (q : Nat × List Byte → Bool) :
    ∀ s, valid_utf8 s = true →
      decode_all (((decode_all s).filter q).map Prod.snd).flatten = (decode_all s).filter q := by
  refine valid_utf8_induction ?_ ?_
  · rw [decode_all_of_zero (byte_at_nil 0)]
    simp [decode_all_of_zero (byte_at_nil 0)]
  · intro c rest hc _ ih
    by_cases h0 : c = [0]
    · rw [valid_char_nul_cases h0]
      simp [decode_all_of_zero (byte_at_nil 0)]
    · obtain ⟨cp, hd, _⟩ := decode_all_char hc h0
      rw [hd rest]
      by_cases hq : q (cp, c) = true
      · rw [List.filter_cons_of_pos hq]
        simp only [List.map_cons, List.flatten_cons]
        rw [hd, ih]
      · rw [List.filter_cons_of_neg hq]
        exact ih

theorem decode_encode_fold :
    ∀ s, valid_utf8 s = true → (0 : Byte) ∉ s → ∀ acc,
      (decode_all s).foldl (fun buffer c => append_utf8_char c.1 buffer) acc = acc ++ s := by
  refine valid_utf8_induction ?_ ?_
  · intro _ acc
    rw [decode_all_of_zero (byte_at_nil 0)]
    simp
  · intro c rest hc _ ih hz acc
    have h0 : c ≠ [0] := by
      intro h
      apply hz
      rw [h]; simp
    obtain ⟨cp, hd, henc⟩ := decode_all_char hc h0
    rw [hd rest, List.foldl_cons, henc, ih (fun h => hz (List.mem_append_right _ h)),
      List.append_assoc]

/-- C4: for every valid UTF-8 byte string without NUL bytes, decoding it from start to end
with `get_next_utf8_char` and writing every code point back with `append_utf8_char`, in
order, gives exactly the bytes of the string. -/
theorem decode_encode_roundtrip (s : List Byte) (hv : valid_utf8 s = true)
    (h0 : (0 : Byte) ∉ s) : decode_encode s = s := by
  unfold decode_encode
  rw [decode_encode_fold s hv h0 []]
  rfl

theorem decode_encode_roundtrip_witness :
    valid_utf8 [0x61, 0xC9, 0xAA, 0xE2, 0x82, 0xAC, 0xF0, 0x9F, 0x98, 0x80] = true ∧
    (0 : Byte) ∉ ([0x61, 0xC9, 0xAA, 0xE2, 0x82, 0xAC, 0xF0, 0x9F, 0x98, 0x80] : List Byte) ∧
    decode_encode [0x61, 0xC9, 0xAA, 0xE2, 0x82, 0xAC, 0xF0, 0x9F, 0x98, 0x80] =
      [0x61, 0xC9, 0xAA, 0xE2, 0x82, 0xAC, 0xF0, 0x9F, 0x98, 0x80] :=
  ⟨by decide, by decide,
    decode_encode_roundtrip [0x61, 0xC9, 0xAA, 0xE2, 0x82, 0xAC, 0xF0, 0x9F, 0x98, 0x80]
      (by decide) (by decide)⟩

/-- C1 (counterexample): in the malformed input CB 5F 88 the stress marker `_` separates a
lead byte from a continuation byte; after its removal the two bytes read as U+02C8. -/
theorem strip_stress_markers_joins_marker :
    ∃ out, strip_stress_markers [0xCB, 0x5F, 0x88] = some out ∧
      ∃ c ∈ decode_all out, c.1 = 0x02C8 :=
  ⟨[0xCB, 0x88], by decide, (0x02C8, [0xCB, 0x88]), by decide, rfl⟩

/-- C1 (amended): for every valid UTF-8 input, the result of stress stripping decodes to the
decoded characters of the input without the stress markers, in the same order; none of its
code points is U+02C8, U+02CC or `_`. -/
theorem strip_stress_markers_no_marker (s : List Byte) (hv : valid_utf8 s = true) :
    ∃ out, strip_stress_markers s = some out ∧
      decode_all out = (decode_all s).filter (fun c => !is_stress_marker c.1) ∧
      ∀ c ∈ decode_all out, c.1 ≠ 0x02C8 ∧ c.1 ≠ 0x02CC ∧ c.1 ≠ 0x5F := by
  refine ⟨_, strip_stress_markers_eq s, decode_all_filter _ s hv, ?_⟩
  intro c hc
  rw [decode_all_filter _ s hv] at hc
  have h := (List.mem_filter.mp hc).2
  simp only [is_stress_marker, Bool.not_eq_true', Bool.or_eq_false_iff, beq_eq_false_iff_ne,
    ne_eq] at h
  exact ⟨h.1.1, h.1.2, h.2⟩

theorem strip_stress_markers_no_marker_witness :
    valid_utf8 [0xCB, 0x88, 0x61, 0x5F, 0xCB, 0x8C, 0x62] = true ∧
    ∃ out, strip_stress_markers [0xCB, 0x88, 0x61, 0x5F, 0xCB, 0x8C, 0x62] = some out ∧
      decode_all out = (decode_all [0xCB, 0x88, 0x61, 0x5F, 0xCB, 0x8C, 0x62]).filter
        (fun c => !is_stress_marker c.1) ∧
      ∀ c ∈ decode_all out, c.1 ≠ 0x02C8 ∧ c.1 ≠ 0x02CC ∧ c.1 ≠ 0x5F :=
  ⟨by decide, strip_stress_markers_no_marker [0xCB, 0x88, 0x61, 0x5F, 0xCB, 0x8C, 0x62]
    (by decide)⟩


/-! ## Validity through the rewrite passes -/

theorem robust_scan_valid {from_ to_ : List Byte} (hf : valid_utf8 from_ = true)
    (ht : valid_utf8 to_ = true) {s out : List Byte} (h : RobustScan from_ to_ s out) :
    valid_utf8 s = true → valid_utf8 out = true := by
  induction h with
  | stop _ => intro _; rfl
  | @hit s out _ hpre _ ih =>
    intro hv
    obtain ⟨t, rfl⟩ := hpre
    rw [List.drop_left] at ih
    exact valid_utf8_append ht (ih (valid_utf8_cancel hf hv))
  | @skip s out ch n hb _ hg _ ih =>
    intro hv
    have hne : s ≠ [] := by
      intro h
      rw [h] at hb
      exact hb (byte_at_nil 0)
    obtain ⟨c, rest, rfl, hc, hr⟩ := valid_utf8_split hv hne
    have h0 : c ≠ [0] := by
      intro h
      rw [h] at hb
      exact hb (by rw [List.singleton_append, byte_at_cons_zero]; rfl)
    obtain ⟨cp, hdec, _⟩ := valid_char_decode hc h0
    rw [(hdec rest).1] at hg
    simp only [Option.some.injEq, Prod.mk.injEq] at hg
    obtain ⟨_, rfl⟩ := hg
    rw [List.take_left, valid_utf8_char_append hc]
    rw [List.drop_left] at ih
    exact ih hr

theorem ascii_replace_valid {from_ to_ : List Byte} (hne : from_ ≠ [])
    (hf : ∀ b ∈ from_, b.val < 0x80) (ht : valid_utf8 to_ = true) (tail : List Byte) :
    ∀ (gaps : List (List Byte)),
      valid_utf8 ((gaps.map (· ++ from_)).flatten ++ tail) = true →
      valid_utf8 ((gaps.map (· ++ to_)).flatten ++ tail) = true := by
  intro gaps
  induction gaps with
  | nil => intro h; simpa using h
  | cons g gs ih =>
    intro h
    simp only [List.map_cons, List.flatten_cons, List.append_assoc] at h ⊢
    cases hfrom : from_ with
    | nil => exact absurd hfrom hne
    | cons x f =>
      rw [hfrom] at h
      have hx : x.val < 0x80 := hf x (by simp [hfrom])
      have hg : valid_utf8 g = true :=
        valid_utf8_before_ascii hx _ g.length g (le_refl _) (by simpa using h)
      have h2 : valid_utf8 (from_ ++ ((gs.map (· ++ from_)).flatten ++ tail)) = true := by
        rw [hfrom]
        exact valid_utf8_cancel hg h
      have h3 := valid_utf8_cancel (valid_utf8_of_ascii from_ hf) h2
      exact valid_utf8_append hg (valid_utf8_append ht (ih h3))

/-- One rewrite pass with a valid pattern and a valid replacement returns, and keeps a valid
string valid. -/
theorem replace_substring_robust_valid {str from_ to_ : List Byte}
    (hs : valid_utf8 str = true) (hf : valid_utf8 from_ = true) (ht : valid_utf8 to_ = true) :
    ∃ out, replace_substring_robust str from_ to_ = some out ∧ valid_utf8 out = true := by
  rcases replace_substring_robust_cases str from_ to_ with
    ⟨_, h⟩ | ⟨hne, hall, gaps, tail, he, h, _, _⟩ | ⟨_, _, out, h, hscan⟩
  · exact ⟨_, h, hs⟩
  · refine ⟨_, h, ascii_replace_valid hne hall ht tail gaps ?_⟩
    rw [← he]; exact hs
  · exact ⟨out, h, robust_scan_valid hf ht hscan hs⟩

theorem apply_rules_valid (rules : List (List Byte × List Byte))
    (hr : ∀ p ∈ rules, valid_utf8 p.1 = true ∧ valid_utf8 p.2 = true) :
    ∀ s, valid_utf8 s = true → ∃ out, apply_rules rules s = some out ∧ valid_utf8 out = true := by
  induction rules with
  | nil => intro s hs; exact ⟨s, rfl, hs⟩
  | cons pair rest ih =>
    intro s hs
    obtain ⟨mid, hmid, hv⟩ :=
      replace_substring_robust_valid hs (hr pair (by simp)).1 (hr pair (by simp)).2
    obtain ⟨out, hout, hvo⟩ := ih (fun p hp => hr p (by simp [hp])) mid hv
    refine ⟨out, ?_, hvo⟩
    show (replace_substring_robust s pair.1 pair.2).bind (apply_rules rest) = some out
    rw [hmid, Option.some_bind, hout]

theorem E2M_valid : ∀ p ∈ E2M, valid_utf8 p.1 = true ∧ valid_utf8 p.2 = true := by
  decide

/-- C6: for every valid UTF-8 input string the output of stress stripping is valid UTF-8, the
output of the first `k` rewrite passes of the table, applied in order, is valid UTF-8 for
every `k`, and the output of `process_phonemes` is valid UTF-8. NUL bytes need not be
excluded: the stages work on the part of the string before the first NUL. -/
theorem pipeline_valid_utf8 (s : List Byte) (hv : valid_utf8 s = true) :
    ∃ stripped, strip_stress_markers s = some stripped ∧ valid_utf8 stripped = true ∧
      (∀ k, ∃ out, apply_rules (E2M.take k) stripped = some out ∧ valid_utf8 out = true) ∧
      ∃ out, process_phonemes (some s) = some out ∧ valid_utf8 out = true := by
  refine ⟨_, strip_stress_markers_eq s, strip_valid hv, ?_, ?_⟩
  · intro k
    exact apply_rules_valid _ (fun p hp => E2M_valid p (List.mem_of_mem_take hp)) _
      (strip_valid hv)
  · obtain ⟨out, ho, hvo⟩ := apply_rules_valid E2M E2M_valid _ (strip_valid hv)
    refine ⟨out, ?_, hvo⟩
    rw [process_phonemes_some, strip_stress_markers_eq, Option.some_bind,
      transform_phonemes_eq, ho]

theorem pipeline_valid_utf8_witness :
    valid_utf8 [0xCB, 0x88, 0x74, 0x5E, 0xCA, 0x83, 0xC3, 0xA6, 0x74, 0x5E, 0x73] = true ∧
    ∃ stripped,
      strip_stress_markers [0xCB, 0x88, 0x74, 0x5E, 0xCA, 0x83, 0xC3, 0xA6, 0x74, 0x5E, 0x73]
        = some stripped ∧ valid_utf8 stripped = true ∧
      (∀ k, ∃ out, apply_rules (E2M.take k) stripped = some out ∧ valid_utf8 out = true) ∧
      ∃ out, process_phonemes
          (some [0xCB, 0x88, 0x74, 0x5E, 0xCA, 0x83, 0xC3, 0xA6, 0x74, 0x5E, 0x73]) = some out ∧
        valid_utf8 out = true :=
  ⟨by decide,
    pipeline_valid_utf8 [0xCB, 0x88, 0x74, 0x5E, 0xCA, 0x83, 0xC3, 0xA6, 0x74, 0x5E, 0x73]
      (by decide)⟩

/-! ## A lone continuation byte -/

theorem decode4_continuation {b0 : Nat} (h : 128 ≤ b0 ∧ b0 < 192) (b1 b2 b3 : Nat) :
    decode4 b0 b1 b2 b3 = (0xFFFD, 1) := by
  unfold decode4
  rw [if_neg (by omega), if_neg (by omega), if_neg (by omega), if_neg (by omega)]

theorem decode_all_continuation {x : Byte} (hx : 128 ≤ x.val ∧ x.val < 192)
    (post : List Byte) :
    get_next_utf8_char (x :: post) 0 = some (0xFFFD, 1) ∧
      decode_all (x :: post) = (0xFFFD, [x]) :: decode_all post := by
  have hb : byte_at (x :: post) 0 ≠ 0 := by rw [byte_at_cons_zero]; omega
  obtain ⟨ch, n, hg, _, _, _, hd4, hd⟩ := decode_all_eq hb
  rw [byte_at_cons_zero, decode4_continuation hx] at hd4
  simp only [Prod.mk.injEq] at hd4
  obtain ⟨rfl, rfl⟩ := hd4
  exact ⟨hg, by rw [hd]; rfl⟩

theorem decode_all_append_continuation {x : Byte} (hx : 128 ≤ x.val ∧ x.val < 192)
    (post : List Byte) :
    ∀ pre, valid_utf8 pre = true → (0 : Byte) ∉ pre →
      decode_all (pre ++ x :: post) = decode_all pre ++ (0xFFFD, [x]) :: decode_all post := by
  refine valid_utf8_induction ?_ ?_
  · intro _
    rw [decode_all_of_zero (byte_at_nil 0)]
    exact (decode_all_continuation hx post).2
  · intro c rest hc _ ih hz
    have h0 : c ≠ [0] := by
      intro h
      apply hz
      rw [h]; simp
    obtain ⟨cp, hd, _⟩ := decode_all_char hc h0
    rw [List.append_assoc, hd, hd, ih (fun h => hz (List.mem_append_right _ h))]
    rfl

/-- C2 (counterexample): for the input `'a', 0x80, 'b'` the output of `process_phonemes` is
the input itself; the bytes EF BF BD do not occur in it. -/
theorem process_phonemes_keeps_malformed_byte :
    process_phonemes (some [0x61, 0x80, 0x62]) = some [0x61, 0x80, 0x62] ∧
    ¬ ([0xEF, 0xBF, 0xBD] : List Byte) <:+: [0x61, 0x80, 0x62] := by
  decide

/-- C2 (amended): a continuation byte `x` that follows a valid NUL-free prefix stands alone.
The decoder reads it as U+FFFD and advances by one byte; the stress-removal stage copies the
byte `x` itself, not the encoding of U+FFFD, at its position between the stripped prefix and
the stripped remainder, and `process_phonemes` returns; for `'a', 0x80, 'b'` it returns
`'a', 0x80, 'b'`. -/
theorem strip_lone_continuation (pre post : List Byte) (x : Byte)
    (hpre : valid_utf8 pre = true) (h0 : (0 : Byte) ∉ pre)
    (hx : 128 ≤ x.val ∧ x.val < 192) :
    get_next_utf8_char (pre ++ x :: post) pre.length = some (0xFFFD, pre.length + 1) ∧
    (∃ a b, strip_stress_markers pre = some a ∧ strip_stress_markers post = some b ∧
      strip_stress_markers (pre ++ x :: post) = some (a ++ x :: b)) ∧
    (∃ out, process_phonemes (some (pre ++ x :: post)) = some out) ∧
    process_phonemes (some [0x61, 0x80, 0x62]) = some [0x61, 0x80, 0x62] := by
  refine ⟨?_, ?_, ?_, by decide⟩
  · rw [get_next_utf8_char_drop (by simp), List.drop_left, (decode_all_continuation hx post).1]
    rfl
  · refine ⟨_, _, strip_stress_markers_eq pre, strip_stress_markers_eq post, ?_⟩
    rw [strip_stress_markers_eq, decode_all_append_continuation hx post pre hpre h0]
    have hns : (!is_stress_marker 0xFFFD) = true := by decide
    simp [List.filter_cons, hns]
  · obtain ⟨out, ho⟩ := apply_rules_total E2M
      (((decode_all (pre ++ x :: post)).filter (fun c => !is_stress_marker c.1)).map
        Prod.snd).flatten
    exact ⟨out, by rw [process_phonemes_some, strip_stress_markers_eq, Option.some_bind,
      transform_phonemes_eq, ho]⟩

theorem strip_lone_continuation_witness :
    valid_utf8 [0x61, 0xCB, 0x88] = true ∧ (0 : Byte) ∉ ([0x61, 0xCB, 0x88] : List Byte) ∧
    (128 ≤ (0x80 : Byte).val ∧ (0x80 : Byte).val < 192) ∧
    strip_stress_markers ([0x61, 0xCB, 0x88] ++ 0x80 :: [0x5F, 0x62]) =
      some [0x61, 0x80, 0x62] := by
  refine ⟨by decide, by decide, by decide, ?_⟩
  obtain ⟨_, ⟨a, b, ha, hb, h⟩, _, _⟩ :=
    strip_lone_continuation [0x61, 0xCB, 0x88] [0x5F, 0x62] 0x80 (by decide) (by decide)
      (by decide)
  have ea : strip_stress_markers [0x61, 0xCB, 0x88] = some [0x61] := by decide
  have eb : strip_stress_markers [0x5F, 0x62] = some [0x62] := by decide
  rw [ea] at ha
  rw [eb] at hb
  obtain rfl := Option.some.inj ha
  obtain rfl := Option.some.inj hb
  exact h


/-! ## Examples of the rule table and of the pipeline -/

/-- C11: the rule table applied to the bytes of "a^ɪl" yields the bytes of "Il". The rule
`a^ɪ -> I` is the first entry of the table and the rule `^ -> ""` the fifteenth; the first
pass alone already gives "Il", so the caret is consumed by the ligature rule. -/
theorem transform_phonemes_ligature_first :
    transform_phonemes [0x61, 0x5E, 0xC9, 0xAA, 0x6C] = some [0x49, 0x6C] ∧
    E2M[0]? = some ([0x61, 0x5E, 0xC9, 0xAA], [0x49]) ∧
    E2M[14]? = some ([0x5E], []) ∧
    apply_rules (E2M.take 1) [0x61, 0x5E, 0xC9, 0xAA, 0x6C] = some [0x49, 0x6C] := by
  decide

/-- C12: the rule table applied to the bytes of "ɔː and" yields the bytes of "ɔɹ ænd". -/
theorem transform_phonemes_colon_and_respelling :
    transform_phonemes [0xC9, 0x94, 0xCB, 0x90, 0x20, 0x61, 0x6E, 0x64] =
      some [0xC9, 0x94, 0xC9, 0xB9, 0x20, 0xC3, 0xA6, 0x6E, 0x64] := by
  decide

/-- C14: `process_phonemes` returns the empty string for the null pointer and for the empty
string. -/
theorem process_phonemes_absent_or_empty :
    process_phonemes none = some [] ∧ process_phonemes (some []) = some [] := by
  decide

/-! ## Stress removal on ASCII text -/

theorem decode_all_ascii_cons {b : Byte} (hb : b.val < 0x80) (h0 : b.val ≠ 0)
    (t : List Byte) : decode_all (b :: t) = (b.val, [b]) :: decode_all t := by
  have hz : byte_at (b :: t) 0 ≠ 0 := by rw [byte_at_cons_zero]; exact h0
  obtain ⟨ch, n, _, _, _, _, hd4, hd⟩ := decode_all_eq hz
  rw [byte_at_cons_zero] at hd4
  have e : decode4 b.val (byte_at (b :: t) 1) (byte_at (b :: t) 2) (byte_at (b :: t) 3)
      = (b.val, 1) := by
    unfold decode4
    rw [if_pos hb]
  rw [e] at hd4
  simp only [Prod.mk.injEq] at hd4
  obtain ⟨rfl, rfl⟩ := hd4
  rw [hd]
  rfl

theorem is_stress_marker_ascii {b : Byte} (hb : b.val < 0x80) :
    is_stress_marker b.val = (b == 0x5F) := by
  unfold is_stress_marker
  have h1 : (b.val == 0x02C8) = false := by
    rw [beq_eq_false_iff_ne]; omega
  have h2 : (b.val == 0x02CC) = false := by
    rw [beq_eq_false_iff_ne]; omega
  rw [h1, h2, Bool.false_or, Bool.false_or]
  by_cases h : b = 0x5F
  · subst h; rfl
  · have h3 : b.val ≠ 0x5F := fun hv => h (Fin.ext hv)
    have h4 : (b.val == 0x5F) = false := by rw [beq_eq_false_iff_ne]; exact h3
    have h5 : (b == 0x5F) = false := by rw [beq_eq_false_iff_ne]; exact h
    rw [h4, h5]

theorem strip_ascii_eq :
    ∀ s : List Byte, (∀ b ∈ s, b.val < 0x80) → (0 : Byte) ∉ s →
      (((decode_all s).filter (fun c => !is_stress_marker c.1)).map Prod.snd).flatten =
        s.filter (fun b => b != 0x5F) := by
  intro s
  induction s with
  | nil =>
    intro _ _
    rw [decode_all_of_zero (byte_at_nil 0)]
    rfl
  | cons b t ih =>
    intro hs h0
    have hb : b.val < 0x80 := hs b (by simp)
    have hb0 : b.val ≠ 0 := by
      intro h
      apply h0
      have : b = 0 := Fin.ext h
      simp [this]
    rw [decode_all_ascii_cons hb hb0, List.filter_cons, List.filter_cons]
    have iht := ih (fun x hx => hs x (by simp [hx])) (fun h => h0 (by simp [h]))
    simp only [is_stress_marker_ascii hb]
    by_cases h : b = 0x5F
    · subst h
      simp only [beq_self_eq_true, Bool.not_true, Bool.false_eq_true, if_false, bne_self_eq_false]
      exact iht
    · have h5 : (b == 0x5F) = false := by rw [beq_eq_false_iff_ne]; exact h
      have h6 : (b != 0x5F) = true := by simp [bne, h5]
      simp only [h5, Bool.not_false, if_true, h6, List.map_cons, List.flatten_cons,
        List.singleton_append, iht]

/-- C13: `process_phonemes` applied to "a_b" yields "ab"; and for every string of bytes
`< 0x80` (without NUL) the stress-removal stage removes exactly the `_` bytes and leaves
every other byte in place, in order. -/
theorem strip_stress_markers_ascii (s : List Byte) (hs : ∀ b ∈ s, b.val < 0x80)
    (h0 : (0 : Byte) ∉ s) :
    process_phonemes (some [0x61, 0x5F, 0x62]) = some [0x61, 0x62] ∧
    strip_stress_markers s = some (s.filter (fun b => b != 0x5F)) := by
  refine ⟨by decide, ?_⟩
  rw [strip_stress_markers_eq, strip_ascii_eq s hs h0]

set_option maxRecDepth 10000 in
theorem strip_stress_markers_ascii_witness :
    (∀ b ∈ ([0x5F, 0x61, 0x5F, 0x5F, 0x62, 0x5E] : List Byte), b.val < 0x80) ∧
    (0 : Byte) ∉ ([0x5F, 0x61, 0x5F, 0x5F, 0x62, 0x5E] : List Byte) ∧
    strip_stress_markers [0x5F, 0x61, 0x5F, 0x5F, 0x62, 0x5E] = some [0x61, 0x62, 0x5E] := by
  refine ⟨by decide, by decide, ?_⟩
  have h := (strip_stress_markers_ascii [0x5F, 0x61, 0x5F, 0x5F, 0x62, 0x5E] (by decide)
    (by decide)).2
  have e : ([0x5F, 0x61, 0x5F, 0x5F, 0x62, 0x5E] : List Byte).filter (fun b => b != 0x5F)
      = [0x61, 0x62, 0x5E] := by decide
  rw [e] at h
  exact h

/-! ## Encoding, then decoding -/

theorem to_char_val_of_lt {x : Nat} (h : x < 256) : (to_char x).val = x :=
  Nat.mod_eq_of_lt h

/-- C15: for every code point `cp < 0x110000`, `append_utf8_char` writes exactly `n` bytes
at the end of the buffer, with `n = 1` if `cp < 0x80`, `2` if `cp < 0x800`, `3` if
`cp < 0x10000`, else `4`; and `get_next_utf8_char` at the start of those bytes, whatever
follows them, returns `cp` and consumes exactly `n` bytes. -/
theorem append_utf8_char_then_decode (cp : Nat) (hcp : cp < 0x110000)
    (buffer rest : List Byte) :
    ∃ enc : List Byte, append_utf8_char cp buffer = buffer ++ enc ∧
      enc.length = (if cp < 0x80 then 1 else if cp < 0x800 then 2
        else if cp < 0x10000 then 3 else 4) ∧
      get_next_utf8_char (enc ++ rest) 0 = some (cp, enc.length) := by
  rw [append_utf8_char_eq]
  by_cases h1 : cp < 0x80
  · refine ⟨[to_char cp], by rw [if_pos h1], by rw [if_pos h1]; rfl, ?_⟩
    rw [get_next_utf8_char_eq (Nat.zero_le _)]
    simp only [List.singleton_append, byte_at_cons_zero, Nat.zero_add]
    rw [to_char_val_of_lt (by omega)]
    unfold decode4
    rw [if_pos h1]
    rfl
  · by_cases h2 : cp < 0x800
    · refine ⟨[to_char (192 + cp / 64), to_char (128 + cp % 64)],
        by rw [if_neg h1, if_pos h2], by rw [if_neg h1, if_pos h2]; rfl, ?_⟩
      rw [get_next_utf8_char_eq (Nat.zero_le _)]
      simp only [List.cons_append, List.nil_append, byte_at_cons_zero, Nat.zero_add,
        byte_at_cons_succ]
      rw [to_char_val_of_lt (x := 192 + cp / 64) (by omega),
        to_char_val_of_lt (x := 128 + cp % 64) (by omega)]
      unfold decode4
      rw [if_neg (by omega), if_pos (by omega)]
      simp only [List.length_cons, List.length_nil, Option.some.injEq, Prod.mk.injEq]
      exact ⟨by omega, trivial⟩
    · by_cases h3 : cp < 0x10000
      · refine ⟨[to_char (224 + cp / 4096), to_char (128 + cp / 64 % 64),
          to_char (128 + cp % 64)],
          by rw [if_neg h1, if_neg h2, if_pos h3],
          by rw [if_neg h1, if_neg h2, if_pos h3]; rfl, ?_⟩
        rw [get_next_utf8_char_eq (Nat.zero_le _)]
        simp only [List.cons_append, List.nil_append, byte_at_cons_zero, Nat.zero_add,
          byte_at_cons_succ]
        rw [to_char_val_of_lt (x := 224 + cp / 4096) (by omega),
          to_char_val_of_lt (x := 128 + cp / 64 % 64) (by omega),
          to_char_val_of_lt (x := 128 + cp % 64) (by omega)]
        unfold decode4
        rw [if_neg (by omega), if_neg (by omega), if_pos (by omega)]
        simp only [List.length_cons, List.length_nil, Option.some.injEq, Prod.mk.injEq]
        exact ⟨by omega, trivial⟩
      · refine ⟨[to_char (240 + cp / 262144), to_char (128 + cp / 4096 % 64),
          to_char (128 + cp / 64 % 64), to_char (128 + cp % 64)],
          by rw [if_neg h1, if_neg h2, if_neg h3, if_pos hcp],
          by rw [if_neg h1, if_neg h2, if_neg h3]; rfl, ?_⟩
        rw [get_next_utf8_char_eq (Nat.zero_le _)]
        simp only [List.cons_append, List.nil_append, byte_at_cons_zero, Nat.zero_add,
          byte_at_cons_succ]
        rw [to_char_val_of_lt (x := 240 + cp / 262144) (by omega),
          to_char_val_of_lt (x := 128 + cp / 4096 % 64) (by omega),
          to_char_val_of_lt (x := 128 + cp / 64 % 64) (by omega),
          to_char_val_of_lt (x := 128 + cp % 64) (by omega)]
        unfold decode4
        rw [if_neg (by omega), if_neg (by omega), if_neg (by omega), if_pos (by omega)]
        simp only [List.length_cons, List.length_nil, Option.some.injEq, Prod.mk.injEq]
        exact ⟨by omega, trivial⟩

theorem append_utf8_char_then_decode_witness :
    (0x20AC : Nat) < 0x110000 ∧
    append_utf8_char 0x20AC [0x61] = [0x61, 0xE2, 0x82, 0xAC] ∧
    get_next_utf8_char [0xE2, 0x82, 0xAC, 0x62] 0 = some (0x20AC, 3) := by
  obtain ⟨enc, h1, _, h3⟩ := append_utf8_char_then_decode 0x20AC (by decide) [0x61] [0x62]
  have e : append_utf8_char 0x20AC [0x61] = [0x61] ++ [0xE2, 0x82, 0xAC] := by decide
  rw [e] at h1
  have e2 : enc = [0xE2, 0x82, 0xAC] := (List.append_cancel_left h1).symm
  subst e2
  exact ⟨by decide, e, h3⟩

/-! ## The rejecting branch of the boundary-checked scan -/

theorem cursor_loop_succ (buf : List Byte) (fuel src : Nat) :
    cursor_loop buf (fuel + 1) src =
      (rd buf src).bind fun c =>
        if c = 0 then some [src]
        else (get_next_utf8_char buf src).bind fun r =>
          (cursor_loop buf fuel r.2).bind fun rest => some (src :: rest) := by
  rfl

theorem byte_at_of_lt {s : List Byte} {p : Nat} (hp : p < s.length) :
    byte_at s p = (s.get ⟨p, hp⟩).val := by
  unfold byte_at rd c_str
  rw [List.getElem?_append_left hp, List.getElem?_eq_getElem hp]
  rfl

theorem byte_at_ne_zero_of_lt {s : List Byte} (h0 : (0 : Byte) ∉ s) {p : Nat}
    (hp : p < s.length) : byte_at s p ≠ 0 := by
  rw [byte_at_of_lt hp]
  intro h
  apply h0
  have e : s.get ⟨p, hp⟩ = 0 := Fin.ext h
  rw [← e]
  exact List.get_mem s p hp

/-- The cursor of the stress-removal loop on a buffer without interior NUL: it moves forward
from `p` to the terminator in steps that are the spans of the decoded characters. -/
theorem cursor_loop_ok {s : List Byte} (h0 : (0 : Byte) ∉ s) :
    ∀ (fuel p : Nat), p ≤ s.length → s.length - p < fuel →
      ∃ cs, cursor_loop s fuel p = some cs ∧ cs.head? = some p ∧
        cs.getLast? = some s.length ∧ List.Chain' (fun a b => a < b) cs ∧
        (decode_loop s fuel p).map Prod.snd =
          List.zipWith (fun a b => (s.drop a).take (b - a)) cs cs.tail ∧
        ∀ q ∈ cs, q ≤ s.length ∧
          (q < s.length → ∃ ch n, get_next_utf8_char s q = some (ch, q + n) ∧
            q + n ≤ s.length ∧ q + n ∈ cs) := by
  intro fuel
  induction fuel with
  | zero => intro p _ h; omega
  | succ fuel ih =>
    intro p hp hf
    rw [cursor_loop_succ, rd_eq_byte_at hp]
    by_cases hz : byte_at s p = 0
    · have hpl : p = s.length := by
        by_contra hne
        exact byte_at_ne_zero_of_lt h0 (by omega) hz
      refine ⟨[p], by simp [hz], rfl, by simp [hpl], by simp, by simp [decode_loop_succ, hz],
        ?_⟩
      intro q hq
      have : q = p := by simpa using hq
      subst this
      exact ⟨hp, fun h => by omega⟩
    · obtain ⟨ch, n, hg, h1, _, hle, _, hd⟩ := decode_loop_step fuel hz
      obtain ⟨cs, hcs, hhead, hlast, hchain, hspans, hall⟩ := ih (p + n) hle (by omega)
      cases cs with
      | nil => simp at hhead
      | cons a t =>
        have ha : a = p + n := by simpa using hhead
        subst ha
        refine ⟨p :: (p + n) :: t, ?_, rfl, ?_, ?_, ?_, ?_⟩
        · simp only [Option.some_bind, if_neg hz, hg, hcs]
        · rw [List.getLast?_cons_cons]; exact hlast
        · exact List.Chain'.cons (by omega) hchain
        · rw [hd, List.map_cons, hspans]
          simp only [List.tail_cons, List.zipWith_cons_cons, Nat.add_sub_cancel_left]
        · intro q hq
          rcases List.mem_cons.mp hq with rfl | hmem
          · exact ⟨hp, fun _ => ⟨ch, n, hg, hle, by simp⟩⟩
          · obtain ⟨h2, h3⟩ := hall q hmem
            refine ⟨h2, fun hlt => ?_⟩
            obtain ⟨ch', n', e1, e2, e3⟩ := h3 hlt
            exact ⟨ch', n', e1, e2, List.mem_cons_of_mem _ e3⟩

/-- C17: on every NUL-terminated buffer without interior NUL bytes, the cursor of the
stress-removal loop starts at 0, moves strictly forward and stops exactly on the terminator;
the spans consumed by `get_next_utf8_char` are the slices between consecutive cursor values
and together make up the input exactly; no decode step reads past the terminator (such a
read is the result `none`), and every step ends at or before the terminator. -/
theorem stress_scan_coverage (s : List Byte) (h0 : (0 : Byte) ∉ s) :
    ∃ cs, cursors s = some cs ∧ cs.head? = some 0 ∧ cs.getLast? = some s.length ∧
      List.Chain' (fun a b => a < b) cs ∧
      (decode_all s).map Prod.snd =
        List.zipWith (fun a b => (s.drop a).take (b - a)) cs cs.tail ∧
      ((decode_all s).map Prod.snd).flatten = s ∧
      ∀ q ∈ cs, q ≤ s.length ∧
        (q < s.length → ∃ ch n, get_next_utf8_char s q = some (ch, q + n) ∧
          q + n ≤ s.length ∧ q + n ∈ cs) := by
  obtain ⟨cs, h1, h2, h3, h4, h5, h6⟩ :=
    cursor_loop_ok h0 (s.length + 1) 0 (Nat.zero_le _) (by omega)
  exact ⟨cs, h1, h2, h3, h4, h5, decode_all_spans_eq s.length s (le_refl _) h0, h6⟩

theorem stress_scan_coverage_witness :
    (0 : Byte) ∉ ([0x61, 0xCB, 0x88, 0x5F, 0xE2, 0x82] : List Byte) ∧
    cursors [0x61, 0xCB, 0x88, 0x5F, 0xE2, 0x82] = some [0, 1, 3, 4, 5, 6] ∧
    ((decode_all [0x61, 0xCB, 0x88, 0x5F, 0xE2, 0x82]).map Prod.snd).flatten =
      [0x61, 0xCB, 0x88, 0x5F, 0xE2, 0x82] := by
  obtain ⟨cs, h1, _, _, _, _, h6, _⟩ :=
    stress_scan_coverage [0x61, 0xCB, 0x88, 0x5F, 0xE2, 0x82] (by decide)
  exact ⟨by decide, by decide, h6⟩

/-! ## The reference replace-all -/

theorem replace_all_from_skip (from_ to_ : List Byte) :
    ∀ (k : Nat) (s : List Byte),
      replace_all_from from_ to_ k s = replace_all_from from_ to_ 0 (s.drop k) := by
  intro k
  induction k with
  | zero => intro s; rfl
  | succ k ih =>
    intro s
    cases s with
    | nil => rfl
    | cons b t =>
      rw [List.drop_succ_cons, ← ih t]
      rfl

theorem replace_all_ref_nil (from_ to_ : List Byte) : replace_all_ref from_ to_ [] = [] := rfl

/-- Where the non-empty pattern occurs at the start, the reference writes the replacement and
goes on after the occurrence. -/
theorem replace_all_ref_hit {from_ to_ s : List Byte} (hne : from_ ≠ []) (h : from_ <+: s) :
    replace_all_ref from_ to_ s = to_ ++ replace_all_ref from_ to_ (s.drop from_.length) := by
  cases s with
  | nil =>
    exact absurd (List.prefix_nil.mp h) hne
  | cons b t =>
    have hp : from_.isPrefixOf (b :: t) = true := List.isPrefixOf_iff_prefix.mpr h
    have hl : 0 < from_.length := List.length_pos.mpr hne
    show replace_all_from from_ to_ 0 (b :: t) = _
    rw [replace_all_from, if_pos hp, replace_all_from_skip]
    have e : from_.length = (from_.length - 1) + 1 := by omega
    conv => rhs; rw [e, List.drop_succ_cons]
    rfl

/-- Where the pattern does not occur at the start, the reference copies the first byte. -/
theorem replace_all_ref_miss {from_ to_ : List Byte} {b : Byte} {t : List Byte}
    (h : ¬ from_ <+: b :: t) :
    replace_all_ref from_ to_ (b :: t) = b :: replace_all_ref from_ to_ t := by
  have hp : ¬ from_.isPrefixOf (b :: t) = true := fun hp => h (List.isPrefixOf_iff_prefix.mp hp)
  show replace_all_from from_ to_ 0 (b :: t) = _
  rw [replace_all_from, if_neg hp]
  rfl

/-- The reference copies a stretch in which no occurrence of the pattern starts. -/
theorem replace_all_ref_gap (from_ to_ rest : List Byte) :
    ∀ g : List Byte, (∀ r, r < g.length → ¬ from_ <+: (g ++ rest).drop r) →
      replace_all_ref from_ to_ (g ++ rest) = g ++ replace_all_ref from_ to_ rest := by
  intro g
  induction g with
  | nil => intro _; rfl
  | cons a g ih =>
    intro h
    have h0 : ¬ from_ <+: a :: (g ++ rest) := h 0 (by simp)
    rw [List.cons_append, replace_all_ref_miss h0, ih, List.cons_append]
    intro r hr
    have := h (r + 1) (by simp; omega)
    simpa using this

theorem prefix_of_append_of_length_le {from_ x rest : List Byte}
    (h : from_ <+: x ++ rest) (hl : from_.length ≤ x.length) : from_ <+: x :=
  List.prefix_of_prefix_length_le h (List.prefix_append x rest) hl

/-- The result of the boundary-checked scan, as cut into gaps and a tail, is the reference
replace-all. -/
theorem replace_all_ref_gaps {from_ to_ : List Byte} (hne : from_ ≠ []) (tail : List Byte)
    (htail : ∀ r, ¬ from_ <+: tail.drop r) :
    ∀ gaps : List (List Byte),
      (∀ g ∈ gaps, ∀ r, r < g.length → ¬ from_ <+: (g ++ from_).drop r) →
      replace_all_ref from_ to_ ((gaps.map (· ++ from_)).flatten ++ tail) =
        (gaps.map (· ++ to_)).flatten ++ tail := by
  intro gaps
  induction gaps with
  | nil =>
    intro _
    have := replace_all_ref_gap from_ to_ [] tail
      (fun r hr => by
        have hd := htail r
        simpa using hd)
    simpa [replace_all_ref_nil] using this
  | cons g gs ih =>
    intro h
    simp only [List.map_cons, List.flatten_cons, List.append_assoc]
    have hg : ∀ r, r < g.length →
        ¬ from_ <+: (g ++ (from_ ++ ((gs.map (· ++ from_)).flatten ++ tail))).drop r := by
      intro r hr hpre
      apply h g (by simp) r hr
      rw [← List.append_assoc, List.drop_append_of_le_length
        (by rw [List.length_append]; omega)] at hpre
      apply prefix_of_append_of_length_le hpre
      rw [List.length_drop, List.length_append]
      omega
    rw [replace_all_ref_gap from_ to_ _ g hg, replace_all_ref_hit hne (List.prefix_append _ _),
      List.drop_left, ih (fun g' hg' => h g' (by simp [hg']))]

/-! ## The two replace implementations against the reference -/

theorem string_find_not_continuation {str from_ : List Byte}
    (hall : ∀ b ∈ from_, b.val < 0x80) (hne : from_ ≠ []) {lastPos pos : Nat} {c : Byte}
    (hfind : string_find str from_ lastPos = some pos) (hat : string_at str pos = some c) :
    is_utf8_continuation c = false := by
  obtain ⟨_, _, ⟨t, ht⟩, _⟩ := string_find_some hfind
  cases hfrom : from_ with
  | nil => exact absurd hfrom hne
  | cons b r =>
    have hd : str.drop pos = b :: (r ++ t) := by rw [← ht, hfrom]; rfl
    rw [string_at_of_drop hd] at hat
    obtain rfl := Option.some.inj hat
    exact not_continuation_of_lt (hall b (by simp [hfrom]))

/-- C18: for every string and every non-empty pattern of bytes `< 0x80`,
`replace_substring_robust` is the call of `replace_substring`; no occurrence that
`str.find` returns starts on a continuation byte, so the rejecting branch is never taken; and
the result is the reference left-to-right, non-overlapping, byte-exact replace-all. -/
theorem replace_ascii_pattern_is_reference (str from_ to_ : List Byte) (hne : from_ ≠ [])
    (hall : ∀ b ∈ from_, b.val < 0x80) :
    replace_substring_robust str from_ to_ = replace_substring str from_ to_ ∧
    (∀ lastPos pos c, string_find str from_ lastPos = some pos →
      string_at str pos = some c → is_utf8_continuation c = false) ∧
    replace_substring str from_ to_ = some (replace_all_ref from_ to_ str) := by
  have hdisp : replace_substring_robust str from_ to_ = replace_substring str from_ to_ := by
    have hemp : from_.isEmpty = false := by
      cases from_ with
      | nil => exact absurd rfl hne
      | cons b r => rfl
    have hany : from_.any (fun c => decide (c.val ≥ 0x80)) = false := by
      rw [List.any_eq_false]
      intro b hb
      have := hall b hb
      simp; omega
    unfold replace_substring_robust
    simp only [hemp, Bool.false_eq_true, if_false, hany, Bool.not_false, if_true]
  refine ⟨hdisp, fun lastPos pos c hf ha => string_find_not_continuation hall hne hf ha, ?_⟩
  rcases replace_substring_robust_cases str from_ to_ with
    ⟨he, _⟩ | ⟨_, _, gaps, tail, hstr, hres, htail, hgaps⟩ | ⟨_, ⟨b, hb, hb2⟩, _⟩
  · exact absurd he hne
  · rw [← hdisp, hres]
    congr 1
    conv => rhs; rw [hstr]
    exact (replace_all_ref_gaps hne tail htail gaps hgaps).symm
  · have := hall b hb
    omega

set_option maxRecDepth 10000 in
theorem replace_ascii_pattern_is_reference_witness :
    ([0x74, 0x5E, 0x73] : List Byte) ≠ [] ∧
    (∀ b ∈ ([0x74, 0x5E, 0x73] : List Byte), b.val < 0x80) ∧
    replace_substring [0x61, 0x74, 0x5E, 0x73, 0xC3, 0xA6, 0x74, 0x5E, 0x73] [0x74, 0x5E, 0x73]
        [0xCA, 0xA6] = some [0x61, 0xCA, 0xA6, 0xC3, 0xA6, 0xCA, 0xA6] := by
  have h := (replace_ascii_pattern_is_reference
    [0x61, 0x74, 0x5E, 0x73, 0xC3, 0xA6, 0x74, 0x5E, 0x73] [0x74, 0x5E, 0x73] [0xCA, 0xA6]
    (by decide) (by decide)).2.2
  have e : replace_all_ref [0x74, 0x5E, 0x73] [0xCA, 0xA6]
      [0x61, 0x74, 0x5E, 0x73, 0xC3, 0xA6, 0x74, 0x5E, 0x73] =
      [0x61, 0xCA, 0xA6, 0xC3, 0xA6, 0xCA, 0xA6] := by decide
  rw [e] at h
  exact ⟨by decide, by decide, h⟩

theorem valid_char_inner_continuation {c : List Byte} (hc : valid_char c = true) :
    ∀ r, 1 ≤ r → r < c.length →
      ∃ x t, c.drop r = x :: t ∧ 128 ≤ x.val ∧ x.val < 192 := by
  intro r h1 hr
  match c, hc, hr with
  | [_], _, hr => simp at hr; omega
  | [b0, b1], hc, hr =>
    simp only [valid_char, decide_eq_true_eq] at hc
    simp only [List.length_cons, List.length_nil] at hr
    have : r = 1 := by omega
    subst this
    exact ⟨b1, [], rfl, by omega, by omega⟩
  | [b0, b1, b2], hc, hr =>
    simp only [valid_char, decide_eq_true_eq] at hc
    simp only [List.length_cons, List.length_nil] at hr
    have : r = 1 ∨ r = 2 := by omega
    rcases this with rfl | rfl
    · exact ⟨b1, [b2], rfl, by omega, by omega⟩
    · exact ⟨b2, [], rfl, by omega, by omega⟩
  | [b0, b1, b2, b3], hc, hr =>
    simp only [valid_char, decide_eq_true_eq] at hc
    simp only [List.length_cons, List.length_nil] at hr
    have : r = 1 ∨ r = 2 ∨ r = 3 := by omega
    rcases this with rfl | rfl | rfl
    · exact ⟨b1, [b2, b3], rfl, by omega, by omega⟩
    · exact ⟨b2, [b3], rfl, by omega, by omega⟩
    · exact ⟨b3, [], rfl, by omega, by omega⟩
  | [], hc, _ => simp [valid_char] at hc
  | _ :: _ :: _ :: _ :: _ :: _, hc, _ => simp [valid_char] at hc

/-- A valid string does not start with a continuation byte. -/
theorem valid_utf8_first_byte {y : Byte} {f : List Byte} (hv : valid_utf8 (y :: f) = true) :
    y.val < 128 ∨ 192 ≤ y.val := by
  obtain ⟨c, rest, heq, hc, _⟩ := valid_utf8_split hv (by simp)
  match c, hc, heq with
  | [b0], hc, heq =>
    simp only [valid_char, decide_eq_true_eq] at hc
    simp only [List.singleton_append, List.cons.injEq] at heq
    obtain ⟨rfl, _⟩ := heq
    omega
  | [b0, b1], hc, heq =>
    simp only [valid_char, decide_eq_true_eq] at hc
    simp only [List.cons_append, List.cons.injEq] at heq
    obtain ⟨rfl, _⟩ := heq
    omega
  | [b0, b1, b2], hc, heq =>
    simp only [valid_char, decide_eq_true_eq] at hc
    simp only [List.cons_append, List.cons.injEq] at heq
    obtain ⟨rfl, _⟩ := heq
    omega
  | [b0, b1, b2, b3], hc, heq =>
    simp only [valid_char, decide_eq_true_eq] at hc
    simp only [List.cons_append, List.cons.injEq] at heq
    obtain ⟨rfl, _⟩ := heq
    omega
  | [], hc, _ => simp [valid_char] at hc
  | _ :: _ :: _ :: _ :: _ :: _, hc, _ => simp [valid_char] at hc

/-- On a valid string without NUL and for a valid non-empty pattern, what the
character-scanning loop appends is the reference replace-all of the rest of the string. -/
theorem robust_scan_is_reference {from_ to_ : List Byte} (hf : valid_utf8 from_ = true)
    (hne : from_ ≠ []) {s out : List Byte} (h : RobustScan from_ to_ s out) :
    valid_utf8 s = true → (0 : Byte) ∉ s → out = replace_all_ref from_ to_ s := by
  induction h with
  | @stop s hz =>
    intro _ h0
    have : s = [] := by
      by_contra hs
      exact byte_at_zero_ne_zero hs h0 hz
    rw [this]; rfl
  | @hit s out _ hpre _ ih =>
    intro hv h0
    rw [replace_all_ref_hit hne hpre]
    obtain ⟨t, rfl⟩ := hpre
    rw [List.drop_left] at ih ⊢
    rw [ih (valid_utf8_cancel hf hv) (fun hm => h0 (List.mem_append_right _ hm))]
  | @skip s out ch n hb hnp hg _ ih =>
    intro hv h0
    have hs : s ≠ [] := by
      intro h
      rw [h] at hb
      exact hb (byte_at_nil 0)
    obtain ⟨c, rest, rfl, hc, hr⟩ := valid_utf8_split hv hs
    have hc0 : c ≠ [0] := by
      intro h
      apply h0
      rw [h]; simp
    obtain ⟨cp, hdec, _⟩ := valid_char_decode hc hc0
    rw [(hdec rest).1] at hg
    simp only [Option.some.injEq, Prod.mk.injEq] at hg
    obtain ⟨_, rfl⟩ := hg
    rw [List.take_left]
    rw [List.drop_left] at ih
    rw [ih hr (fun hm => h0 (List.mem_append_right _ hm))]
    symm
    apply replace_all_ref_gap
    intro r hr2 hpre
    by_cases hr0 : r = 0
    · subst hr0
      exact hnp (by simpa using hpre)
    · obtain ⟨x, t, hx, hx1, hx2⟩ := valid_char_inner_continuation hc r (by omega) hr2
      rw [List.drop_append_of_le_length (by omega), hx] at hpre
      cases hfrom : from_ with
      | nil => exact hne hfrom
      | cons y f =>
        rw [hfrom] at hpre hf
        have hy := valid_utf8_first_byte hf
        obtain ⟨t2, ht2⟩ := hpre
        simp only [List.cons_append, List.cons.injEq] at ht2
        obtain ⟨rfl, _⟩ := ht2
        omega

/-- C19: for every valid UTF-8 string without NUL bytes and every valid UTF-8 pattern with
at least one byte `≥ 0x80`, `replace_substring_robust` runs its character-scanning loop and
returns the reference left-to-right, non-overlapping, byte-exact replace-all; it returns the
input unchanged when the pattern does not occur. -/
theorem replace_multibyte_pattern_is_reference (str from_ to_ : List Byte)
    (hv : valid_utf8 str = true) (h0 : (0 : Byte) ∉ str) (hf : valid_utf8 from_ = true)
    (hmb : ∃ b ∈ from_, 0x80 ≤ b.val) :
    replace_substring_robust str from_ to_ =
      replace_substring_robust_loop str from_ to_ (str.length + 1) 0 [] ∧
    replace_substring_robust str from_ to_ = some (replace_all_ref from_ to_ str) ∧
    ((∀ r, ¬ from_ <+: str.drop r) → replace_substring_robust str from_ to_ = some str) := by
  have hne : from_ ≠ [] := by
    obtain ⟨b, hb, _⟩ := hmb
    intro h
    rw [h] at hb
    simp at hb
  have hloop : replace_substring_robust str from_ to_ =
      replace_substring_robust_loop str from_ to_ (str.length + 1) 0 [] := by
    have hemp : from_.isEmpty = false := by
      cases from_ with
      | nil => exact absurd rfl hne
      | cons b r => rfl
    have hany : from_.any (fun c => decide (c.val ≥ 0x80)) = true := by
      rw [List.any_eq_true]
      obtain ⟨b, hb, hb2⟩ := hmb
      exact ⟨b, hb, by simpa using hb2⟩
    unfold replace_substring_robust
    simp only [hemp, Bool.false_eq_true, if_false, hany, Bool.not_true]
  have href : replace_substring_robust str from_ to_ = some (replace_all_ref from_ to_ str) := by
    rcases replace_substring_robust_cases str from_ to_ with
      ⟨he, _⟩ | ⟨_, hall, _⟩ | ⟨_, _, out, hres, hscan⟩
    · exact absurd he hne
    · obtain ⟨b, hb, hb2⟩ := hmb
      have := hall b hb
      omega
    · rw [hres, robust_scan_is_reference hf hne hscan hv h0]
  refine ⟨hloop, href, ?_⟩
  intro hno
  rw [href]
  have := replace_all_ref_gap from_ to_ [] str (fun r _ => by simpa using hno r)
  simpa [replace_all_ref_nil] using this

theorem replace_multibyte_pattern_is_reference_witness :
    valid_utf8 [0x74, 0x5E, 0xCA, 0x83, 0xC3, 0xA6, 0x74, 0x5E, 0xCA, 0x83] = true ∧
    (0 : Byte) ∉ ([0x74, 0x5E, 0xCA, 0x83, 0xC3, 0xA6, 0x74, 0x5E, 0xCA, 0x83] : List Byte) ∧
    valid_utf8 [0x74, 0x5E, 0xCA, 0x83] = true ∧
    (∃ b ∈ ([0x74, 0x5E, 0xCA, 0x83] : List Byte), 0x80 ≤ b.val) ∧
    replace_substring_robust [0x74, 0x5E, 0xCA, 0x83, 0xC3, 0xA6, 0x74, 0x5E, 0xCA, 0x83]
        [0x74, 0x5E, 0xCA, 0x83] [0xCA, 0xA7] = some [0xCA, 0xA7, 0xC3, 0xA6, 0xCA, 0xA7] := by
  have h := (replace_multibyte_pattern_is_reference
    [0x74, 0x5E, 0xCA, 0x83, 0xC3, 0xA6, 0x74, 0x5E, 0xCA, 0x83] [0x74, 0x5E, 0xCA, 0x83]
    [0xCA, 0xA7] (by decide) (by decide) (by decide) ⟨0xCA, by decide, by decide⟩).2.1
  have e : replace_all_ref [0x74, 0x5E, 0xCA, 0x83] [0xCA, 0xA7]
      [0x74, 0x5E, 0xCA, 0x83, 0xC3, 0xA6, 0x74, 0x5E, 0xCA, 0x83] =
      [0xCA, 0xA7, 0xC3, 0xA6, 0xCA, 0xA7] := by decide
  rw [e] at h
  exact ⟨by decide, by decide, by decide, ⟨0xCA, by decide, by decide⟩, h⟩

/-! ## Bytes of the output of the pipeline -/

theorem mem_take_byte_at {s : List Byte} {n : Nat} {b : Byte} (h : b ∈ s.take n) :
    ∃ i, i < n ∧ byte_at s i = b.val := by
  obtain ⟨i, hi, hget⟩ := List.getElem_of_mem h
  have hi' := hi
  rw [List.length_take] at hi'
  have hlt : i < s.length := by omega
  refine ⟨i, by omega, ?_⟩
  rw [byte_at_of_lt hlt, ← hget, List.getElem_take]
  rfl

/-- A decoded character that is not a stress marker has no byte `_` in its span: a byte
`< 0x80` is always decoded on its own. -/
theorem decode_all_span_no_low_line :
    ∀ (m : Nat) (s : List Byte), s.length ≤ m →
      ∀ x ∈ decode_all s, is_stress_marker x.1 = false → (0x5F : Byte) ∉ x.2 := by
  intro m
  induction m with
  | zero =>
    intro s hs x hx
    have : s = [] := List.length_eq_zero.mp (by omega)
    subst this
    rw [decode_all_of_zero (byte_at_nil 0)] at hx
    simp at hx
  | succ m ih =>
    intro s hs x hx hns
    by_cases h0 : byte_at s 0 = 0
    · rw [decode_all_of_zero h0] at hx
      simp at hx
    · obtain ⟨ch, n, _, h1, _, hle, hd4, hd⟩ := decode_all_eq h0
      rw [hd] at hx
      rcases List.mem_cons.mp hx with rfl | hmem
      · intro hmem
        obtain ⟨i, hi, hb⟩ := mem_take_byte_at hmem
        have hv : byte_at s i = 0x5F := hb
        have hcases := decode4_len_cases (byte_at s 0) (byte_at s 1) (byte_at s 2) (byte_at s 3)
        rw [← hd4] at hcases
        simp only at hcases hns
        rcases hcases with e1 | ⟨e2, a0, a1⟩ | ⟨e3, a0, a1, a2⟩ | ⟨e4, a0, a1, a2, a3⟩
        · have hi0 : i = 0 := by omega
          subst hi0
          have hd4' := hd4
          unfold decode4 at hd4'
          rw [if_pos (by omega)] at hd4'
          simp only [Prod.mk.injEq] at hd4'
          rw [hd4'.1, hv] at hns
          exact absurd hns (by decide)
        · have : i = 0 ∨ i = 1 := by omega
          rcases this with rfl | rfl <;> omega
        · have : i = 0 ∨ i = 1 ∨ i = 2 := by omega
          rcases this with rfl | rfl | rfl <;> omega
        · have : i = 0 ∨ i = 1 ∨ i = 2 ∨ i = 3 := by omega
          rcases this with rfl | rfl | rfl | rfl <;> omega
      · exact ih (s.drop n) (by rw [List.length_drop]; omega) x hmem hns

/-- The output of stress removal has no byte `_`, whatever the input. -/
theorem strip_no_low_line (s : List Byte) :
    (0x5F : Byte) ∉ (((decode_all s).filter (fun c => !is_stress_marker c.1)).map
      Prod.snd).flatten := by
  intro h
  obtain ⟨span, hspan, hb⟩ := List.mem_flatten.mp h
  obtain ⟨x, hx, rfl⟩ := List.mem_map.mp hspan
  obtain ⟨hx1, hx2⟩ := List.mem_filter.mp hx
  exact decode_all_span_no_low_line s.length s (le_refl _) x hx1 (by simpa using hx2) hb

theorem robust_scan_bytes {from_ to_ s out : List Byte} (h : RobustScan from_ to_ s out) :
    ∀ b ∈ out, b ∈ s ∨ b ∈ to_ := by
  induction h with
  | stop _ => intro b hb; simp at hb
  | hit _ _ _ ih =>
    intro b hb
    rcases List.mem_append.mp hb with h1 | h2
    · exact Or.inr h1
    · rcases ih b h2 with h3 | h3
      · exact Or.inl (List.mem_of_mem_drop h3)
      · exact Or.inr h3
  | skip _ _ _ _ ih =>
    intro b hb
    rcases List.mem_append.mp hb with h1 | h2
    · exact Or.inl (List.mem_of_mem_take h1)
    · rcases ih b h2 with h3 | h3
      · exact Or.inl (List.mem_of_mem_drop h3)
      · exact Or.inr h3

/-- Every byte of the result of a rewrite pass comes from the string or from the
replacement. -/
theorem replace_substring_robust_bytes {str from_ to_ out : List Byte}
    (h : replace_substring_robust str from_ to_ = some out) :
    ∀ b ∈ out, b ∈ str ∨ b ∈ to_ := by
  rcases replace_substring_robust_cases str from_ to_ with
    ⟨_, h1⟩ | ⟨_, _, gaps, tail, hstr, hres, _, _⟩ | ⟨_, _, out2, hres, hscan⟩
  · rw [h1] at h
    obtain rfl := Option.some.inj h
    exact fun b hb => Or.inl hb
  · rw [hres] at h
    obtain rfl := Option.some.inj h
    intro b hb
    rw [hstr]
    rcases List.mem_append.mp hb with h1 | h2
    · obtain ⟨l, hl, hbl⟩ := List.mem_flatten.mp h1
      obtain ⟨g, hg, rfl⟩ := List.mem_map.mp hl
      rcases List.mem_append.mp hbl with h3 | h3
      · left
        apply List.mem_append_left
        exact List.mem_flatten.mpr ⟨g ++ from_, List.mem_map.mpr ⟨g, hg, rfl⟩,
          List.mem_append_left _ h3⟩
      · exact Or.inr h3
    · exact Or.inl (List.mem_append_right _ h2)
  · rw [hres] at h
    obtain rfl := Option.some.inj h
    exact robust_scan_bytes hscan

theorem not_mem_of_no_occurrence {x : Byte} (rest : List Byte) :
    ∀ g : List Byte, (∀ r, r < g.length → ¬ [x] <+: (g ++ rest).drop r) → x ∉ g := by
  intro g
  induction g with
  | nil => intro _; simp
  | cons a g ih =>
    intro h hx
    rcases List.mem_cons.mp hx with rfl | hmem
    · apply h 0 (by simp)
      exact ⟨g ++ rest, rfl⟩
    · apply ih _ hmem
      intro r hr
      have := h (r + 1) (by simp; omega)
      simpa using this

/-- The pass for a one-byte pattern `< 0x80` removes every such byte, when the replacement
does not bring it back. -/
theorem replace_single_byte_removes {str to_ out : List Byte} {x : Byte} (hx : x.val < 0x80)
    (hto : x ∉ to_) (h : replace_substring_robust str [x] to_ = some out) : x ∉ out := by
  rcases replace_substring_robust_cases str [x] to_ with
    ⟨he, _⟩ | ⟨_, _, gaps, tail, _, hres, htail, hgaps⟩ | ⟨_, ⟨b, hb, hb2⟩, _⟩
  · simp at he
  · rw [hres] at h
    obtain rfl := Option.some.inj h
    intro hmem
    rcases List.mem_append.mp hmem with h1 | h2
    · obtain ⟨l, hl, hbl⟩ := List.mem_flatten.mp h1
      obtain ⟨g, hg, rfl⟩ := List.mem_map.mp hl
      rcases List.mem_append.mp hbl with h3 | h3
      · exact not_mem_of_no_occurrence [x] g (hgaps g hg) h3
      · exact hto h3
    · exact not_mem_of_no_occurrence [] tail
        (fun r _ => by simpa using htail r) h2
  · have : b = x := by simpa using hb
    subst this
    omega

theorem apply_rules_avoid {x : Byte} (rules : List (List Byte × List Byte))
    (hr : ∀ p ∈ rules, x ∉ p.2) :
    ∀ s out, apply_rules rules s = some out → x ∉ s → x ∉ out := by
  induction rules with
  | nil =>
    intro s out h hs
    obtain rfl := Option.some.inj h
    exact hs
  | cons pair rest ih =>
    intro s out h hs
    have h' : (replace_substring_robust s pair.1 pair.2).bind (apply_rules rest) = some out := h
    obtain ⟨mid, hmid, hout⟩ := Option.bind_eq_some.mp h'
    apply ih (fun p hp => hr p (by simp [hp])) mid out hout
    intro hm
    rcases replace_substring_robust_bytes hmid x hm with h1 | h1
    · exact hs h1
    · exact hr pair (by simp) h1

theorem apply_rules_append (a b : List (List Byte × List Byte)) :
    ∀ s, apply_rules (a ++ b) s = (apply_rules a s).bind (apply_rules b) := by
  induction a with
  | nil => intro s; rfl
  | cons pair rest ih =>
    intro s
    show (replace_substring_robust s pair.1 pair.2).bind (apply_rules (rest ++ b)) = _
    cases hq : replace_substring_robust s pair.1 pair.2 with
    | none => simp [apply_rules, hq]
    | some mid => simp [apply_rules, hq, ih mid]

theorem E2M_split_caret :
    E2M = E2M.take 14 ++ (([0x5E], []) ::
      [([0x61, 0x6E, 0x64], [0xC3, 0xA6, 0x6E, 0x64]), ([0x3A], [])]) := by
  decide

theorem E2M_split_colon : E2M = E2M.take 16 ++ [([0x3A], [])] := by
  decide

theorem E2M_replacements : ∀ p ∈ E2M,
    (0x5F : Byte) ∉ p.2 ∧ (0x5E : Byte) ∉ p.2 ∧ (0x3A : Byte) ∉ p.2 := by
  decide

/-- The rule table removes `^` and `:` and brings in no `_`. -/
theorem apply_rules_E2M_bytes {s out : List Byte} (h : apply_rules E2M s = some out)
    (hs : (0x5F : Byte) ∉ s) :
    (0x5F : Byte) ∉ out ∧ (0x5E : Byte) ∉ out ∧ (0x3A : Byte) ∉ out := by
  refine ⟨?_, ?_, ?_⟩
  · exact apply_rules_avoid E2M (fun p hp => (E2M_replacements p hp).1) s out h hs
  · rw [E2M_split_caret, apply_rules_append] at h
    obtain ⟨m1, _, h2⟩ := Option.bind_eq_some.mp h
    have h2' : (replace_substring_robust m1 [0x5E] []).bind
        (apply_rules [([0x61, 0x6E, 0x64], [0xC3, 0xA6, 0x6E, 0x64]), ([0x3A], [])])
        = some out := h2
    obtain ⟨m2, h3, h4⟩ := Option.bind_eq_some.mp h2'
    have hm2 : (0x5E : Byte) ∉ m2 := replace_single_byte_removes (by decide) (by simp) h3
    exact apply_rules_avoid _ (by decide) m2 out h4 hm2
  · rw [E2M_split_colon, apply_rules_append] at h
    obtain ⟨m1, _, h2⟩ := Option.bind_eq_some.mp h
    have h2' : (replace_substring_robust m1 [0x3A] []).bind (apply_rules []) = some out := h2
    obtain ⟨m2, h3, h4⟩ := Option.bind_eq_some.mp h2'
    obtain rfl : m2 = out := Option.some.inj h4
    exact replace_single_byte_removes (by decide) (by simp) h3

/-- C20: for every input, well-formed or not, the output of `process_phonemes` has none of
the bytes `_` (0x5F), `^` (0x5E) and `:` (0x3A): no replacement of the table has one of them,
the output of stress removal has no `_`, and the passes for `^` and `:` remove every such
byte without a later pass bringing one back. -/
theorem process_phonemes_output_bytes (phonemes : Option (List Byte)) (buf : List Byte) :
    (∀ p ∈ E2M, (0x5F : Byte) ∉ p.2 ∧ (0x5E : Byte) ∉ p.2 ∧ (0x3A : Byte) ∉ p.2) ∧
    (∃ stripped, strip_stress_markers buf = some stripped ∧ (0x5F : Byte) ∉ stripped) ∧
    ∃ out, process_phonemes phonemes = some out ∧
      (0x5F : Byte) ∉ out ∧ (0x5E : Byte) ∉ out ∧ (0x3A : Byte) ∉ out := by
  refine ⟨E2M_replacements, ⟨_, strip_stress_markers_eq buf, strip_no_low_line buf⟩, ?_⟩
  cases phonemes with
  | none => exact ⟨[], rfl, by simp, by simp, by simp⟩
  | some b =>
    obtain ⟨out, ho⟩ := apply_rules_total E2M
      (((decode_all b).filter (fun c => !is_stress_marker c.1)).map Prod.snd).flatten
    refine ⟨out, ?_, apply_rules_E2M_bytes ho (strip_no_low_line b)⟩
    rw [process_phonemes_some, strip_stress_markers_eq, Option.some_bind,
      transform_phonemes_eq, ho]

theorem process_phonemes_output_bytes_witness :
    process_phonemes (some [0xCB, 0x5F, 0x88, 0x5E, 0x3A, 0x61, 0x5F, 0x80, 0x3A]) =
      some [0xCB, 0x88, 0x61, 0x80] ∧
    (0x5F : Byte) ∉ ([0xCB, 0x88, 0x61, 0x80] : List Byte) ∧
    (0x5E : Byte) ∉ ([0xCB, 0x88, 0x61, 0x80] : List Byte) ∧
    (0x3A : Byte) ∉ ([0xCB, 0x88, 0x61, 0x80] : List Byte) := by
  obtain ⟨_, _, out, h1, h2, h3, h4⟩ := process_phonemes_output_bytes
    (some [0xCB, 0x5F, 0x88, 0x5E, 0x3A, 0x61, 0x5F, 0x80, 0x3A]) []
  have e : process_phonemes (some [0xCB, 0x5F, 0x88, 0x5E, 0x3A, 0x61, 0x5F, 0x80, 0x3A]) =
      some [0xCB, 0x88, 0x61, 0x80] := by decide
  rw [e] at h1
  obtain rfl := Option.some.inj h1
  exact ⟨e, h2, h3, h4⟩
